import Mathlib

/-!
Verification of the change-classification and spec-reconstruction engine in
scripts/generate_partial_spec.py (final version of the script, lines 291-586;
the commented-out draft at the top of the file is superseded and not modeled).

Documents are modeled by a JSON-like tree `J`.  Python dictionaries preserve
insertion order and have unique keys; they are modeled as association lists
(`List (String × J)`), with first-match lookup.  JSON numbers are modeled as
integers (no claim depends on numeric semantics).  Python `set` values used by
the script are modeled as lists used only through membership, except for the
affected-operation set whose iteration order is observable in the output: there
the iteration order is an explicit parameter ranging over the enumerations of
the set (predicate `orderOK`).

Inputs on which the Python code would raise an uncaught exception (e.g. a
specification whose "paths" value is a string, so that `.items()` fails) are
outside the modeled domain; at those points the model takes the harmless
branch, and no theorem's truth depends on such inputs.
-/

inductive J where
  | null
  | bool (b : Bool)
  | num (n : Int)
  | str (s : String)
  | arr (xs : List J)
  | obj (kvs : List (String × J))

/-- First-match lookup in an association list, the model of Python `d[k]`
reads and `k in d` tests on a dict. -/
def lookupKv : List (String × J) → String → Option J
  | [], _ => none
  | (k, v) :: rest, t => if k = t then some v else lookupKv rest t

/-- Replace the value of an existing key in place (first match), the model of
Python `d[k] = v` when `k` is already present. -/
def updKv : List (String × J) → String → J → List (String × J)
  | [], _, _ => []
  | (k, w) :: rest, t, v => if k = t then (k, v) :: rest else (k, w) :: updKv rest t v

/-- Python `d[k] = v`: overwrite in place when present, append otherwise. -/
def setKv (kvs : List (String × J)) (k : String) (v : J) : List (String × J) :=
  if (lookupKv kvs k).isSome then updKv kvs k v else kvs ++ [(k, v)]

/-- Key lookup on a `J` value: `none` when the value is not an object. -/
def jlookup : J → String → Option J
  | .obj kvs, k => lookupKv kvs k
  | _, _ => none

/-- Python truthiness of a JSON value. -/
def truthy : J → Bool
  | .null => false
  | .bool b => b
  | .num n => n ≠ 0
  | .str s => s.data ≠ []
  | .arr xs => !xs.isEmpty
  | .obj kvs => !kvs.isEmpty

/-- Model of `spec.get("paths")` / `spec.get("paths", {})` followed by use as a
dict: the entry list of the "paths" object, `[]` when absent or not an object. -/
def pathsKvs (spec : J) : List (String × J) :=
  match jlookup spec "paths" with
  | some (.obj kvs) => kvs
  | _ => []

/-- ASCII uppercase by code point, the model of Python `str.upper()` on the
ASCII method and path tokens this script manipulates. -/
def sUpper (s : String) : String := ⟨s.data.map Char.toUpper⟩

/-- ASCII lowercase by code point, the model of Python `str.lower()`. -/
def sLower (s : String) : String := ⟨s.data.map Char.toLower⟩

/-- Python `s.startswith(p)`. -/
def sStarts (s p : String) : Bool := p.data.isPrefixOf s.data

/-- Python `s.endswith(p)`. -/
def sEnds (s p : String) : Bool := p.data.reverse.isPrefixOf s.data.reverse

/-- Split a character list on a separator, Python `str.split(sep)`:
`"a.b".split "." = ["a","b"]`, `"".split "." = [""]`. -/
def splitCh (c : Char) : List Char → List (List Char)
  | [] => [[]]
  | x :: xs =>
    let r := splitCh c xs
    if x = c then [] :: r
    else
      match r with
      | h :: t => (x :: h) :: t
      | [] => [[x]]

/-- Python `s.split(sep)` for a one-character separator. -/
def sSplit (c : Char) (s : String) : List String :=
  (splitCh c s.data).map (fun l => ⟨l⟩)

/-- Python `s.split(sep, 1)`: split at the first occurrence only; `none` models
`sep not in s`. -/
def splitFirstCh (c : Char) : List Char → Option (List Char × List Char)
  | [] => none
  | x :: xs =>
    if x = c then some ([], xs)
    else (splitFirstCh c xs).map (fun p => (x :: p.1, p.2))

/-- Helper `_is_int_str` from the source: nonempty all-digits string
(`re.fullmatch(r'\d+', s)`), ASCII-digit model. -/
def _is_int_str (s : String) : Bool := !s.data.isEmpty && s.data.all Char.isDigit

/-- Numeric value of an all-digits string, Python `int(s)`. -/
def strToNat (s : String) : Nat :=
  s.data.foldl (fun acc ch => acc * 10 + (ch.toNat - 48)) 0

/-- Digits of a natural number, most significant first (fuel-indexed). -/
def natToStrAux : Nat → Nat → List Char
  | 0, _ => []
  | fuel + 1, n => if n = 0 then [] else natToStrAux fuel (n / 10) ++ [Char.ofNat (48 + n % 10)]

/-- Decimal rendering of a natural number. -/
def natToStr (n : Nat) : String := if n = 0 then "0" else ⟨natToStrAux n n⟩

/-- Decimal rendering of an integer, as Python json prints int. -/
def intToStr (i : Int) : String :=
  if i < 0 then "-" ++ natToStr i.natAbs else natToStr i.natAbs

/-- JSON string escaping of one character (quote and backslash only; enough to
make the serialization injective on the documents the script sees). -/
def escChar (c : Char) : List Char :=
  if c = '"' then ['\\', '"'] else if c = '\\' then ['\\', '\\'] else [c]

/-- JSON quoting of a string. -/
def quoteStr (s : String) : String := ⟨'"' :: (s.data.flatMap escChar ++ ['"'])⟩

/-- Comma-join, as Python json separates list and object entries. -/
def joinComma (l : List String) : String := String.join (l.intersperse ", ")

/-- Code-point lexicographic order on strings, the order Python sorts keys in. -/
def chListLe : List Char → List Char → Bool
  | [], _ => true
  | _ :: _, [] => false
  | a :: as, b :: bs =>
    if a.toNat < b.toNat then true
    else if b.toNat < a.toNat then false
    else chListLe as bs

/-- Insert one (raw key, rendered value) pair in key order. -/
def insPair (p : String × String) : List (String × String) → List (String × String)
  | [] => [p]
  | q :: rest => if chListLe p.1.data q.1.data then p :: q :: rest else q :: insPair p rest

/-- Insertion sort of (raw key, rendered value) pairs by key, the model of
`sort_keys=True`. -/
def sortPairs : List (String × String) → List (String × String)
  | [] => []
  | p :: rest => insPair p (sortPairs rest)

/-- Render one sorted object entry. -/
def pairColon (p : String × String) : String := quoteStr p.1 ++ ": " ++ p.2

mutual
/-- Canonical order-independent serialization: the model of
`json.dumps(x, sort_keys=True)`, used by the script only through string
equality, so that two sub-trees compare equal exactly when their
key-sorted serializations coincide. -/
def dumpsJ : J → String
  | .null => "null"
  | .bool b => if b then "true" else "false"
  | .num n => intToStr n
  | .str s => quoteStr s
  | .arr xs => "[" ++ joinComma (dumpsArr xs) ++ "]"
  | .obj kvs => "\x7b" ++ joinComma ((sortPairs (dumpsKvs kvs)).map pairColon) ++ "\x7d"

/-- Serialize each element of a JSON array. -/
def dumpsArr : List J → List String
  | [] => []
  | x :: rest => dumpsJ x :: dumpsArr rest

/-- Serialize the values of object entries, keeping raw keys for sorting. -/
def dumpsKvs : List (String × J) → List (String × String)
  | [] => []
  | (k, v) :: rest => (k, dumpsJ v) :: dumpsKvs rest
end

mutual
/-- `find_all_refs` from the source: collect every string value of a `"$ref"`
key anywhere in a sub-tree, in traversal order (the source accumulates into a
set; only membership and an arbitrary iteration order are ever used). -/
def findRefs : J → List String
  | .obj kvs =>
    (match lookupKv kvs "$ref" with
     | some (.str s) => [s]
     | _ => []) ++ findRefsKvs kvs
  | .arr xs => findRefsArr xs
  | _ => []

/-- Recurse over the values of an object, as `for value in obj.values()`. -/
def findRefsKvs : List (String × J) → List String
  | [] => []
  | (_, v) :: rest => findRefs v ++ findRefsKvs rest

/-- Recurse over the items of a list, as `for item in obj`. -/
def findRefsArr : List J → List String
  | [] => []
  | x :: rest => findRefs x ++ findRefsArr rest
end

/-- The fixed HTTP-method set of the source
(`{"get","put","post","delete","patch","options","head","trace"}`). -/
def op_methods : List String :=
  ["get", "put", "post", "delete", "patch", "options", "head", "trace"]

/-- `get_key_from_loc` from the source: tokenize the dotted location; three or
more tokens yield `METHOD@path` with the method uppercased, exactly two yield
`PATH_ONLY@path`, anything else yields no key. -/
def get_key_from_loc (loc_str : String) : Option String :=
  if sStarts loc_str "paths." then
    let tokens := sSplit '.' loc_str
    if tokens.length ≥ 3 then
      some (sUpper (tokens.getD 2 "") ++ "@" ++ tokens.getD 1 "")
    else if tokens.length = 2 then
      some ("PATH_ONLY@" ++ tokens.getD 1 "")
    else none
  else none

/-- `load_baseline_operations` from the source, applied to the already-loaded
baseline document (`load_spec_file` returns `{}` for an absent or unreadable
file): one `METHOD@path` entry per method-shaped key under every path.  The
source accumulates into a set used only through membership. -/
def load_baseline_operations (baseline_spec : J) : List String :=
  if truthy baseline_spec then
    match jlookup baseline_spec "paths" with
    | some (.obj pkvs) =>
      pkvs.flatMap (fun pi =>
        match pi.2 with
        | .obj mkvs =>
          mkvs.filterMap (fun mv =>
            if sLower mv.1 ∈ op_methods then some (sUpper mv.1 ++ "@" ++ pi.1) else none)
        | _ => [])
    | _ => []
  else []

/-- First entity-detail location of a diff item side: the key must be present
and truthy (a nonempty list), its first element an object with a string
`location` (a falsy first element degrades to `{}`, hence no location). -/
def detail_loc : Option J → Option String
  | some (.arr (x :: _)) =>
    (match x with
     | .obj xkvs =>
       (match lookupKv xkvs "location" with
        | some (.str s) => some s
        | _ => none)
     | _ => none)
  | _ => none

/-- Location of one diff item: destination side preferred, source side used
when the destination side is absent or falsy, item skipped when neither yields
a truthy location (`if not loc_str: continue`). -/
def item_loc (it : J) : Option String :=
  match it with
  | .obj kvs =>
    let fallback :=
      match detail_loc (lookupKv kvs "sourceSpecEntityDetails") with
      | some s2 => if s2.data = [] then none else some s2
      | none => none
    (match detail_loc (lookupKv kvs "destinationSpecEntityDetails") with
     | some s => if s.data = [] then fallback else some s
     | none => fallback)
  | _ => none

/-- Operation key contributed by one diff item, if any. -/
def item_key (it : J) : Option String :=
  match item_loc it with
  | some s => get_key_from_loc s
  | none => none

/-- Flattening of the diff report into one item list: the three categorized
lists when any is a list, else the flat `differences` list, else (for a bare
array) the array itself. -/
def extract_items (diff : J) : List J :=
  match diff with
  | .obj kvs =>
    let items :=
      (match lookupKv kvs "breakingDifferences" with | some (.arr xs) => xs | _ => []) ++
      (match lookupKv kvs "nonBreakingDifferences" with | some (.arr xs) => xs | _ => []) ++
      (match lookupKv kvs "unclassifiedDifferences" with | some (.arr xs) => xs | _ => [])
    if items.isEmpty then
      (match lookupKv kvs "differences" with | some (.arr xs) => xs | _ => [])
    else items
  | .arr xs => xs
  | _ => []

/-- Operation keys contributed by the diff-report strategy, in item order. -/
def diff_keys (diff : J) : List String := (extract_items diff).filterMap item_key

/-- Decision of `detect_manual_changes` for one destination operation: affected
when the (path, method) slot is absent from the source, or when the canonical
serializations differ. -/
def manualHit (source_paths : List (String × J)) (path m : String) (op : J) : Bool :=
  match lookupKv source_paths path with
  | none => true
  | some pitem =>
    match jlookup pitem m with
    | none => true
    | some source_op => if dumpsJ op = dumpsJ source_op then false else true

/-- `detect_manual_changes` from the source: the keys it adds to the affected
set, in destination iteration order (possibly with duplicates; the set collapses
them, which the membership-based `orderOK` below reflects). -/
def detect_manual_changes (source_spec dest_spec : J) : List String :=
  (pathsKvs dest_spec).flatMap (fun pi =>
    match pi.2 with
    | .obj mkvs =>
      mkvs.filterMap (fun mv =>
        if sLower mv.1 ∈ op_methods then
          (if manualHit (pathsKvs source_spec) pi.1 mv.1 mv.2 then
            some (sUpper mv.1 ++ "@" ++ pi.1)
           else none)
        else none)
    | _ => [])

/-- The affected-operation set of `build_new_spec`: union of the diff-report
strategy and the deep-compare strategy (membership in this list is membership
in the Python set `affected_ops`). -/
def affectedKeys (diff source_spec dest_spec : J) : List String :=
  diff_keys diff ++ detect_manual_changes source_spec dest_spec

/-- `order` enumerates the affected set: the Python `for key in affected_ops`
loop iterates each member exactly once, in an order the language does not
determine.  Theorems about `build_new_spec` quantify over every such order. -/
def orderOK (diff source_spec dest_spec : J) (order : List String) : Prop :=
  order.Nodup ∧ ∀ k, k ∈ order ↔ k ∈ affectedKeys diff source_spec dest_spec

/-- `if path not in new_spec["paths"]: new_spec["paths"][path] = {}` — the
empty path-item stub step of `copy_operation_from_dest`. -/
def copyStub (paths : List (String × J)) (path : String) : List (String × J) :=
  if (lookupKv paths path).isSome then paths else paths ++ [(path, J.obj [])]

/-- `new_spec["paths"][path][method] = deepcopy(...)` — the write step of
`copy_operation_from_dest`; the path item is an object whenever this is
reached (a non-object there would make the Python assignment raise). -/
def copyWrite (paths : List (String × J)) (path method : String) (op : J) :
    List (String × J) :=
  match lookupKv paths path with
  | some (.obj ikvs) => updKv paths path (.obj (setKv ikvs method op))
  | _ => paths

/-- `copy_operation_from_dest` from the source, acting on the entry list of the
output document's `paths` object: bail out without a separator, create the
empty path-item stub, then copy the destination operation when the destination
defines that (path, lowercased method) slot. -/
def copy_operation_from_dest (dest_spec : J) (paths : List (String × J))
    (op_key : String) : List (String × J) :=
  match splitFirstCh '@' op_key.data with
  | none => paths
  | some mp =>
    let method := sLower ⟨mp.1⟩
    let path : String := ⟨mp.2⟩
    let paths1 := copyStub paths path
    match lookupKv (pathsKvs dest_spec) path with
    | some pitem =>
      (match jlookup pitem method with
       | some op => copyWrite paths1 path method op
       | none => paths1)
    | none => paths1

/-- Body of the `for key in affected_ops` loop of `build_new_spec`: the
governance filter followed by the copy. -/
def procKey (dest_spec : J) (legacy_ops : List String)
    (paths : List (String × J)) (key : String) : List (String × J) :=
  if sStarts key "PATH_ONLY@" then
    let path_only := (sSplit '@' key).getD 1 ""
    if legacy_ops.any (fun op => sEnds op ("@" ++ path_only)) then paths
    else
      match lookupKv (pathsKvs dest_spec) path_only with
      | some pitem => setKv paths path_only pitem
      | none => paths
  else
    if key ∈ legacy_ops then paths
    else copy_operation_from_dest dest_spec paths key

/-- `build_new_spec` from the source, with the affected-set iteration order an
explicit parameter (see `orderOK`). -/
def build_new_spec (diff : J) (legacy_ops : List String) (dest_spec source_spec : J)
    (order : List String) : J :=
  J.obj [("openapi", .str "3.0.0"),
         ("info", .obj [("title", .str "Changed-Only API Spec"), ("version", .str "1.0.0")]),
         ("paths", .obj (order.foldl (procKey dest_spec legacy_ops) []))]

/-- Operation lookup in a built document: the operation stored at
`paths[path][method]`, `none` when any level is absent or not an object. -/
def opAt (spec : J) (path method : String) : Option J :=
  (lookupKv (pathsKvs spec) path).bind (fun pitem => jlookup pitem method)

/-- Reference parsing in `build_required_components`: must start with
`#/components/`, split on `/` must have at least four parts; parts 2 and 3 are
the category and the name. -/
def parseRef (ref_str : String) : Option (String × String) :=
  if sStarts ref_str "#/components/" then
    match sSplit '/' ref_str with
    | _ :: _ :: c :: n :: _ => some (c, n)
    | _ => none
  else none

/-- `base_spec.get("components", {})` viewed as an entry list. -/
def baseComps (base_spec : J) : List (String × J) :=
  match jlookup base_spec "components" with
  | some (.obj kvs) => kvs
  | _ => []

/-- Component definition stored in the base specification under
`components[c][n]`, if the category and name both exist. -/
def compLookup (base_spec : J) (c n : String) : Option J :=
  match lookupKv (baseComps base_spec) c with
  | some (.obj names) => lookupKv names n
  | _ => none

/-- Component stored in the output component dictionary under category `c`,
name `n`. -/
def compsAt (comps : List (String × J)) (c n : String) : Option J :=
  match lookupKv comps c with
  | some (.obj names) => lookupKv names n
  | _ => none

/-- Copy a freshly resolved component into the output component dictionary
(`new_spec["components"][comp_type][comp_name] = deepcopy(comp_def)`, creating
the category object first when absent). -/
def compsInsert (comps : List (String × J)) (c n : String) (d : J) :
    List (String × J) :=
  match lookupKv comps c with
  | some (.obj names) => updKv comps c (.obj (names ++ [(n, d)]))
  | some _ => comps
  | none => comps ++ [(c, .obj [(n, d)])]

/-- The worklist loop of `build_required_components`.  The Python queue and
visited set are unordered; the queue is modeled as a list popped from the head
with new references appended, the visited set as a membership list.  Returns
(remaining queue, visited, component dictionary); the fuel only bounds the
iteration count and `resolveFuel` below always suffices. -/
def resolveLoop (base_spec : J) :
    Nat → List String → List String → List (String × J) →
    List String × List String × List (String × J)
  | 0, queue, scanned, comps => (queue, scanned, comps)
  | _ + 1, [], scanned, comps => ([], scanned, comps)
  | fuel + 1, ref_str :: queue, scanned, comps =>
    if ref_str ∈ scanned then resolveLoop base_spec fuel queue scanned comps
    else
      let scanned' := ref_str :: scanned
      match parseRef ref_str with
      | none => resolveLoop base_spec fuel queue scanned' comps
      | some cn =>
        match compLookup base_spec cn.1 cn.2 with
        | none => resolveLoop base_spec fuel queue scanned' comps
        | some comp_def =>
          if (compsAt comps cn.1 cn.2).isSome then
            resolveLoop base_spec fuel queue scanned' comps
          else
            resolveLoop base_spec fuel (queue ++ findRefs comp_def) scanned'
              (compsInsert comps cn.1 cn.2 comp_def)

/-- Every component definition stored anywhere in the base specification's
component dictionary. -/
def compDefs (base_spec : J) : List J :=
  (baseComps base_spec).flatMap (fun cv =>
    match cv.2 with
    | .obj names => names.map Prod.snd
    | _ => [])

/-- Every reference the loop can ever enqueue: the seeds plus all references
occurring in base components. -/
def refUniverse (base_spec : J) (seeds : List String) : List String :=
  seeds ++ (compDefs base_spec).flatMap findRefs

/-- Bound on how many references one loop step can push. -/
def pushBound (base_spec : J) : Nat := ((compDefs base_spec).flatMap findRefs).length

/-- Sufficient fuel for the worklist loop on the given input. -/
def resolveFuel (base_spec : J) (seeds : List String) : Nat :=
  seeds.length + (1 + pushBound base_spec) * (refUniverse base_spec seeds).dedup.length

/-- Write a top-level key of the (object-rooted) output document. -/
def jSetKey (j : J) (k : String) (v : J) : J :=
  match j with
  | .obj kvs => .obj (setKv kvs k v)
  | _ => j

/-- `build_required_components` from the source: when the base specification
has no `components` key the output gets an empty component dictionary;
otherwise the worklist seeded with every reference in the output's paths runs
to exhaustion and the resulting dictionary is written back. -/
def build_required_components (new_spec base_spec : J) : J :=
  if (jlookup base_spec "components").isNone then jSetKey new_spec "components" (J.obj [])
  else
    let comps0 :=
      match jlookup new_spec "components" with
      | some (.obj kvs) => kvs
      | _ => []
    let seeds := findRefs ((jlookup new_spec "paths").getD (J.obj []))
    let comps := (resolveLoop base_spec (resolveFuel base_spec seeds) seeds [] comps0).2.2
    jSetKey new_spec "components" (J.obj comps)

/-- The two logic steps of `main` after loading: build the raw output document
and prune the component dictionary against the destination specification
(`build_required_components(new_spec, base_spec=dest_spec)`). -/
def run_pipeline (diff : J) (legacy_ops : List String) (dest_spec source_spec : J)
    (order : List String) : J :=
  build_required_components (build_new_spec diff legacy_ops dest_spec source_spec order)
    dest_spec

/-- The diff-loading step of `main` applied to a nonempty diff-report text:
`json.loads(txt[txt.find('{'):]) if '{' in txt else {}`, with any parse failure
caught and degraded to `{}` (the warning branch).  The JSON parser itself is an
external collaborator, abstracted as a parameter. -/
def load_diff_data (jsonParse : String → Option J) (txt : String) : J :=
  if txt.data.contains '{' then
    match jsonParse ⟨txt.data.dropWhile (fun ch => ch ≠ '{')⟩ with
    | some d => d
    | none => J.obj []
  else J.obj []

/-- Addressing failure of the Document Addressing component: only the empty
token path is rejected. -/
inductive AddrError where
  | invalidPath

/-- Modelled from the spec: the descent of the `delete` operation of the
Document Addressing component (§4.1), which is absent from the repository
source (only its helper `_is_int_str` survives there).  Descends without
creating; a missing key, an out-of-range or non-numeric index, or a
non-container node makes the whole operation a silent no-op; at the final
token an object key is removed, a sequence element is removed with subsequent
indices shifting down. -/
def delTokens : J → List String → J
  | doc, [] => doc
  | .obj kvs, [t] => .obj (kvs.filter (fun kv => kv.1 ≠ t))
  | .arr xs, [t] =>
    if _is_int_str t then
      (match xs[strToNat t]? with
       | some _ => .arr (xs.eraseIdx (strToNat t))
       | none => .arr xs)
    else .arr xs
  | doc, [_] => doc
  | .obj kvs, t :: r :: rest =>
    (match lookupKv kvs t with
     | some v => .obj (updKv kvs t (delTokens v (r :: rest)))
     | none => .obj kvs)
  | .arr xs, t :: r :: rest =>
    if _is_int_str t then
      (match xs[strToNat t]? with
       | some x => .arr (xs.set (strToNat t) (delTokens x (r :: rest)))
       | none => .arr xs)
    else .arr xs
  | doc, _ :: _ :: _ => doc

/-- Modelled from the spec: the `delete` entry point of Document Addressing
(§4.1, §4.2 error policy): an empty token path is rejected with `InvalidPath`;
every other input degrades to the (possibly no-op) descent and never raises. -/
def delete_path (doc : J) (tokenPath : List String) : Except AddrError J :=
  match tokenPath with
  | [] => .error .invalidPath
  | _ :: _ => .ok (delTokens doc tokenPath)

/-- Does the descent of `delete_path` end by removing a sequence element?
This is the one case in which deletion moves later elements, so a second
identical delete removes a different element. -/
def arrEraseAt : J → List String → Bool
  | _, [] => false
  | .obj _, [_] => false
  | .arr xs, [t] => _is_int_str t && xs[strToNat t]?.isSome
  | _, [_] => false
  | .obj kvs, t :: r :: rest =>
    (match lookupKv kvs t with
     | some v => arrEraseAt v (r :: rest)
     | none => false)
  | .arr xs, t :: r :: rest =>
    if _is_int_str t then
      (match xs[strToNat t]? with
       | some x => arrEraseAt x (r :: rest)
       | none => false)
    else false
  | _, _ :: _ :: _ => false

mutual
/-- Non-sorting serialization, the model of the final
`json.dumps(new_spec, indent=2, ensure_ascii=False)` write up to whitespace:
distinct entry orders of the same object produce distinct output bytes. -/
def dumpsPlain : J → String
  | .null => "null"
  | .bool b => if b then "true" else "false"
  | .num n => intToStr n
  | .str s => quoteStr s
  | .arr xs => "[" ++ joinComma (dumpsPlainArr xs) ++ "]"
  | .obj kvs => "\x7b" ++ joinComma (dumpsPlainKvs kvs) ++ "\x7d"

/-- Serialize array items in order. -/
def dumpsPlainArr : List J → List String
  | [] => []
  | x :: rest => dumpsPlain x :: dumpsPlainArr rest

/-- Serialize object entries in insertion order. -/
def dumpsPlainKvs : List (String × J) → List String
  | [] => []
  | (k, v) :: rest => (quoteStr k ++ ": " ++ dumpsPlain v) :: dumpsPlainKvs rest
end

theorem lookupKv_append_left {kvs : List (String × J)} {t : String}
    (h : (lookupKv kvs t).isSome) (l : List (String × J)) :
    lookupKv (kvs ++ l) t = lookupKv kvs t := by
  induction kvs with
  | nil => simp [lookupKv] at h
  | cons kv rest ih =>
    obtain ⟨k, v⟩ := kv
    by_cases hk : k = t
    · simp [lookupKv, hk]
    · simp only [lookupKv, if_neg hk] at h ⊢
      exact ih h

theorem lookupKv_append_none {kvs : List (String × J)} {t : String}
    (h : lookupKv kvs t = none) (l : List (String × J)) :
    lookupKv (kvs ++ l) t = lookupKv l t := by
  induction kvs with
  | nil => simp [lookupKv]
  | cons kv rest ih =>
    obtain ⟨k, v⟩ := kv
    by_cases hk : k = t
    · simp [lookupKv, hk] at h
    · simp only [lookupKv, if_neg hk] at h ⊢
      exact ih h

theorem lookupKv_updKv_self {kvs : List (String × J)} {t : String}
    (h : (lookupKv kvs t).isSome) (v : J) :
    lookupKv (updKv kvs t v) t = some v := by
  induction kvs with
  | nil => simp [lookupKv] at h
  | cons kv rest ih =>
    obtain ⟨k, w⟩ := kv
    by_cases hk : k = t
    · simp [lookupKv, updKv, hk]
    · simp only [lookupKv, updKv, if_neg hk] at h ⊢
      exact ih h

theorem updKv_of_lookup_none {kvs : List (String × J)} {t : String}
    (h : lookupKv kvs t = none) (v : J) : updKv kvs t v = kvs := by
  induction kvs with
  | nil => simp [updKv]
  | cons kv rest ih =>
    obtain ⟨k, w⟩ := kv
    by_cases hk : k = t
    · simp [lookupKv, hk] at h
    · simp only [lookupKv, if_neg hk] at h
      simp [updKv, if_neg hk, ih h]

theorem lookupKv_updKv_ne {kvs : List (String × J)} {t t' : String}
    (h : t' ≠ t) (v : J) : lookupKv (updKv kvs t v) t' = lookupKv kvs t' := by
  induction kvs with
  | nil => simp [updKv]
  | cons kv rest ih =>
    obtain ⟨k, w⟩ := kv
    by_cases hk : k = t
    · have hk2 : ¬k = t' := fun hh => h (hh ▸ hk)
      simp [updKv, lookupKv, if_pos hk, if_neg hk2]
    · by_cases hk' : k = t'
      · subst hk'
        simp [updKv, lookupKv, if_neg hk]
      · simp [updKv, lookupKv, if_neg hk, if_neg hk', ih]

theorem lookupKv_setKv_self (kvs : List (String × J)) (k : String) (v : J) :
    lookupKv (setKv kvs k v) k = some v := by
  unfold setKv
  by_cases h : (lookupKv kvs k).isSome
  · rw [if_pos h]
    exact lookupKv_updKv_self h v
  · rw [if_neg h]
    simp only [Option.isSome] at h
    rcases hl : lookupKv kvs k with _ | w
    · rw [lookupKv_append_none hl]
      simp [lookupKv]
    · rw [hl] at h; simp at h

theorem lookupKv_setKv_ne {k t : String} (h : t ≠ k) (kvs : List (String × J)) (v : J) :
    lookupKv (setKv kvs k v) t = lookupKv kvs t := by
  unfold setKv
  by_cases hs : (lookupKv kvs k).isSome
  · rw [if_pos hs]
    exact lookupKv_updKv_ne h v
  · rw [if_neg hs]
    by_cases ht : (lookupKv kvs t).isSome
    · exact lookupKv_append_left ht _
    · simp only [Option.isSome] at ht
      rcases hl : lookupKv kvs t with _ | w
      · rw [lookupKv_append_none hl]
        have hk2 : ¬k = t := fun hh => h hh.symm
        simp [lookupKv, hk2]
      · rw [hl] at ht; simp at ht

theorem jlookup_isSome_obj {j : J} {k : String} {v : J} (h : jlookup j k = some v) :
    ∃ kvs, j = .obj kvs ∧ lookupKv kvs k = some v := by
  cases j <;> simp [jlookup] at h ⊢
  assumption

/-- One concrete valid enumeration of the affected set, for witnesses. -/
theorem orderOK_dedup (diff source_spec dest_spec : J) :
    orderOK diff source_spec dest_spec ((affectedKeys diff source_spec dest_spec).dedup) :=
  ⟨List.nodup_dedup _, fun _ => List.mem_dedup⟩

/-- Destination of the order-dependence example: two fresh operations, so the
affected set has two members and the loop order is observable. -/
def ndDest : J :=
  .obj [("paths", .obj [("/a", .obj [("get", .obj [])]), ("/b", .obj [("get", .obj [])])])]

/-- C4.  The claim asserts that the output document is a function of the inputs
alone.  It is not: `build_new_spec` iterates the affected set — a Python `set`,
whose iteration order the language does not fix — and inserts paths in that
order, so two runs differing only in set-iteration order produce outputs whose
paths objects, and hence serialized bytes, differ.  Both orders below are valid
enumerations of the same affected set of the same inputs. -/
theorem build_new_spec_order_dependent :
    orderOK (J.obj []) (J.obj []) ndDest ["GET@/a", "GET@/b"] ∧
    orderOK (J.obj []) (J.obj []) ndDest ["GET@/b", "GET@/a"] ∧
    dumpsPlain (build_new_spec (J.obj []) [] ndDest (J.obj []) ["GET@/a", "GET@/b"]) ≠
      dumpsPlain (build_new_spec (J.obj []) [] ndDest (J.obj []) ["GET@/b", "GET@/a"]) ∧
    build_new_spec (J.obj []) [] ndDest (J.obj []) ["GET@/a", "GET@/b"] ≠
      build_new_spec (J.obj []) [] ndDest (J.obj []) ["GET@/b", "GET@/a"] := by
  have ha : affectedKeys (J.obj []) (J.obj []) ndDest = ["GET@/a", "GET@/b"] := rfl
  have hdp : dumpsPlain (build_new_spec (J.obj []) [] ndDest (J.obj []) ["GET@/a", "GET@/b"]) ≠
      dumpsPlain (build_new_spec (J.obj []) [] ndDest (J.obj []) ["GET@/b", "GET@/a"]) := by
    decide
  refine ⟨⟨by decide, ?_⟩, ⟨by decide, ?_⟩, hdp, fun h => hdp (congrArg dumpsPlain h)⟩
  · rw [ha]
    exact fun k => Iff.rfl
  · rw [ha]
    intro k
    constructor <;> intro hk <;> simp [List.mem_cons] at hk ⊢ <;> tauto

/-- Rebuilding a string from its character data is the identity. -/
theorem strMk_data (s : String) : String.mk s.data = s := rfl

theorem lookupKv_append_single_ne {k p : String} (h : k ≠ p)
    (kvs : List (String × J)) (v : J) :
    lookupKv (kvs ++ [(k, v)]) p = lookupKv kvs p := by
  rcases hl : lookupKv kvs p with _ | w
  · rw [lookupKv_append_none hl]
    simp [lookupKv, h]
  · rw [← hl]
    exact lookupKv_append_left (by simp [hl]) _

theorem lookupKv_mem {kvs : List (String × J)} {k : String} {v : J}
    (h : lookupKv kvs k = some v) : (k, v) ∈ kvs := by
  induction kvs with
  | nil => simp [lookupKv] at h
  | cons kv rest ih =>
    obtain ⟨k', w⟩ := kv
    by_cases hk : k' = k
    · subst hk
      simp [lookupKv] at h
      simp [h]
    · simp only [lookupKv, if_neg hk] at h
      exact List.mem_cons_of_mem _ (ih h)

theorem splitFirstCh_append {a : List Char} (ha : '@' ∉ a) (b : List Char) :
    splitFirstCh '@' (a ++ '@' :: b) = some (a, b) := by
  induction a with
  | nil => simp [splitFirstCh]
  | cons x xs ih =>
    have hx : x ≠ '@' := fun hh => ha (hh ▸ List.mem_cons_self x xs)
    have hxs : '@' ∉ xs := fun hh => ha (List.mem_cons_of_mem x hh)
    simp [splitFirstCh, hx, ih hxs]

/-- Character data of the standard `METHOD@path` key shape. -/
theorem data_key_append (a b : String) :
    (a ++ "@" ++ b).data = a.data ++ '@' :: b.data := by
  simp [String.data_append]

/-- No uppercased HTTP method contains the separator. -/
theorem method_no_at {m : String} (hm : m ∈ op_methods) : '@' ∉ (sUpper m).data := by
  fin_cases hm <;> decide

/-- Lowercasing undoes uppercasing on the eight HTTP method names. -/
theorem sLower_sUpper_method {m : String} (hm : m ∈ op_methods) : sLower (sUpper m) = m := by
  fin_cases hm <;> rfl

/-- The eight HTTP method names are already lowercase. -/
theorem sLower_method {m : String} (hm : m ∈ op_methods) : sLower m = m := by
  fin_cases hm <;> rfl

/-- A `METHOD@path` key never carries the `PATH_ONLY@` marker. -/
theorem method_key_not_pathonly {m : String} (hm : m ∈ op_methods) (p : String) :
    sStarts (sUpper m ++ "@" ++ p) "PATH_ONLY@" = false := by
  fin_cases hm <;> rfl

/-- A fold step preserves any invariant its step function preserves. -/
theorem foldl_preserves {α β : Type} {f : α → β → α} {P : α → Prop}
    (h : ∀ s b, P s → P (f s b)) : ∀ (l : List β) (s : α), P s → P (l.foldl f s) := by
  intro l
  induction l with
  | nil => exact fun s hs => hs
  | cons b rest ih => exact fun s hs => ih _ (h s b hs)

/-- The operation seen at `paths[path][method]` of a fold state. -/
def opInState (s : List (String × J)) (path method : String) : Option J :=
  (lookupKv s path).bind (fun it => jlookup it method)



theorem lookupKv_copyStub_ne {s : List (String × J)} {path q : String} (h : q ≠ path) :
    lookupKv (copyStub s path) q = lookupKv s q := by
  unfold copyStub
  by_cases hs : (lookupKv s path).isSome
  · rw [if_pos hs]
  · rw [if_neg hs]
    exact lookupKv_append_single_ne (fun hh => h hh.symm) s _

theorem lookupKv_copyStub_none {s : List (String × J)} {path : String}
    (hs : lookupKv s path = none) : lookupKv (copyStub s path) path = some (J.obj []) := by
  unfold copyStub
  rw [if_neg (by simp [hs]), lookupKv_append_none hs]
  simp [lookupKv]

theorem lookupKv_copyStub_some {s : List (String × J)} {path : String} {it : J}
    (hs : lookupKv s path = some it) : lookupKv (copyStub s path) path = some it := by
  unfold copyStub
  rw [if_pos (by simp [hs])]
  exact hs

theorem lookupKv_copyWrite_ne {s : List (String × J)} {path q m : String} {op : J}
    (h : q ≠ path) : lookupKv (copyWrite s path m op) q = lookupKv s q := by
  rcases hs : lookupKv s path with _ | it
  · simp [copyWrite, hs]
  · rcases it with _ | _ | _ | _ | _ | ikvs
    all_goals simp only [copyWrite, hs]
    exact lookupKv_updKv_ne h _

theorem copyWrite_obj {s : List (String × J)} {path : String} {ikvs : List (String × J)}
    (hs : lookupKv s path = some (.obj ikvs)) (m : String) (op : J) :
    copyWrite s path m op = updKv s path (.obj (setKv ikvs m op)) := by
  simp [copyWrite, hs]

theorem copyOp_lookup_ne {dest_spec : J} {s : List (String × J)} {K p : String}
    (h : ∀ a bdata, splitFirstCh '@' K.data = some (a, bdata) → (⟨bdata⟩ : String) ≠ p) :
    lookupKv (copy_operation_from_dest dest_spec s K) p = lookupKv s p := by
  rcases hsp : splitFirstCh '@' K.data with _ | ⟨a, bdata⟩
  · simp [copy_operation_from_dest, hsp]
  · have hne : (⟨bdata⟩ : String) ≠ p := h a bdata hsp
    have hne' : p ≠ (⟨bdata⟩ : String) := fun hh => hne hh.symm
    rcases hd : lookupKv (pathsKvs dest_spec) (⟨bdata⟩ : String) with _ | pitem2
    · simp only [copy_operation_from_dest, hsp, hd]
      exact lookupKv_copyStub_ne hne'
    · rcases hmth : jlookup pitem2 (sLower (⟨a⟩ : String)) with _ | op
      · simp only [copy_operation_from_dest, hsp, hd, hmth]
        exact lookupKv_copyStub_ne hne'
      · simp only [copy_operation_from_dest, hsp, hd, hmth]
        rw [lookupKv_copyWrite_ne hne']
        exact lookupKv_copyStub_ne hne'

theorem copyOp_preserves {dest_spec : J} {p m : String} {destOp pitem : J}
    (hpd : lookupKv (pathsKvs dest_spec) p = some pitem)
    (hop : jlookup pitem m = some destOp)
    {s : List (String × J)} (hP : opInState s p m = some destOp) (K : String) :
    opInState (copy_operation_from_dest dest_spec s K) p m = some destOp := by
  obtain ⟨item, hitem, hjm⟩ : ∃ it, lookupKv s p = some it ∧ jlookup it m = some destOp := by
    rcases hs : lookupKv s p with _ | it
    · rw [opInState, hs] at hP
      simp at hP
    · rw [opInState, hs] at hP
      exact ⟨it, rfl, hP⟩
  rcases hsp : splitFirstCh '@' K.data with _ | ⟨a, bdata⟩
  · simpa [copy_operation_from_dest, hsp] using hP
  · by_cases hpc : (⟨bdata⟩ : String) = p
    · subst hpc
      obtain ⟨ikvs, hik, hlk⟩ := jlookup_isSome_obj hjm
      subst hik
      rcases hmth : jlookup pitem (sLower (⟨a⟩ : String)) with _ | op'
      · simp only [copy_operation_from_dest, hsp, hpd, hmth, opInState]
        rw [lookupKv_copyStub_some hitem]
        simpa [jlookup] using hlk
      · have hst : lookupKv (copyStub s (⟨bdata⟩ : String)) (⟨bdata⟩ : String)
            = some (J.obj ikvs) := lookupKv_copyStub_some hitem
        simp only [copy_operation_from_dest, hsp, hpd, hmth]
        rw [copyWrite_obj hst]
        simp only [opInState]
        rw [lookupKv_updKv_self (by simp [hst])]
        by_cases hmm : m = sLower (⟨a⟩ : String)
        · rw [← hmm] at hmth
          rw [hop] at hmth
          obtain rfl : destOp = op' := Option.some.inj hmth
          rw [← hmm]
          simp [jlookup, lookupKv_setKv_self]
        · simp [jlookup, lookupKv_setKv_ne hmm, hlk]
    · have hlp : lookupKv (copy_operation_from_dest dest_spec s K) p = lookupKv s p := by
        refine copyOp_lookup_ne (fun a' b' hsp' => ?_)
        rw [hsp] at hsp'
        have h2 := Option.some.inj hsp'
        have hb : bdata = b' := congrArg Prod.snd h2
        exact hb ▸ hpc
      rw [opInState, hlp, ← opInState]
      exact hP

theorem procKey_preserves_opAt {dest_spec : J} {legacy_ops : List String} {p m : String}
    {destOp pitem : J}
    (hpd : lookupKv (pathsKvs dest_spec) p = some pitem)
    (hop : jlookup pitem m = some destOp)
    {s : List (String × J)} (hP : opInState s p m = some destOp) (K : String) :
    opInState (procKey dest_spec legacy_ops s K) p m = some destOp := by
  unfold procKey
  rcases hPO : sStarts K "PATH_ONLY@" with _ | _
  · simp only [Bool.false_eq_true, if_false]
    by_cases hleg : K ∈ legacy_ops
    · rw [if_pos hleg]
      exact hP
    · rw [if_neg hleg]
      exact copyOp_preserves hpd hop hP K
  · simp only [if_true]
    by_cases hleg : legacy_ops.any
        (fun op => sEnds op ("@" ++ (sSplit '@' K).getD 1 "")) = true
    · rw [if_pos hleg]
      exact hP
    · rw [if_neg hleg]
      by_cases hpo : (sSplit '@' K).getD 1 "" = p
      · rw [hpo, hpd]
        simp only [opInState, lookupKv_setKv_self, Option.bind_some]
        exact hop
      · rcases hdl : lookupKv (pathsKvs dest_spec) ((sSplit '@' K).getD 1 "") with _ | item2
        · exact hP
        · simp only [opInState]
          rw [lookupKv_setKv_ne (fun hh => hpo hh.symm)]
          exact hP

/-- The path-item entry at one path of a fold state, when present, is an
object. -/
def objInv (s : List (String × J)) (p : String) : Prop :=
  ∀ item, lookupKv s p = some item → ∃ kvs, item = J.obj kvs

theorem copyOp_objInv {dest_spec : J} {p : String}
    (hdest : ∀ it2, lookupKv (pathsKvs dest_spec) p = some it2 → ∃ kvs, it2 = J.obj kvs)
    {s : List (String × J)} (hI : objInv s p) (K : String) :
    objInv (copy_operation_from_dest dest_spec s K) p := by
  rcases hsp : splitFirstCh '@' K.data with _ | ⟨a, bdata⟩
  · have he : copy_operation_from_dest dest_spec s K = s := by
      simp [copy_operation_from_dest, hsp]
    rw [he]
    exact hI
  · by_cases hpc : (⟨bdata⟩ : String) = p
    · subst hpc
      have hstub : objInv (copyStub s (⟨bdata⟩ : String)) (⟨bdata⟩ : String) := by
        intro item hit
        rcases hs : lookupKv s (⟨bdata⟩ : String) with _ | it
        · rw [lookupKv_copyStub_none hs] at hit
          exact ⟨[], (Option.some.inj hit).symm⟩
        · rw [lookupKv_copyStub_some hs] at hit
          exact hI item (hs.trans hit)
      rcases hd : lookupKv (pathsKvs dest_spec) (⟨bdata⟩ : String) with _ | pitem2
      · have he : copy_operation_from_dest dest_spec s K = copyStub s (⟨bdata⟩ : String) := by
          simp [copy_operation_from_dest, hsp, hd]
        rw [he]
        exact hstub
      · rcases hmth : jlookup pitem2 (sLower (⟨a⟩ : String)) with _ | op
        · have he : copy_operation_from_dest dest_spec s K = copyStub s (⟨bdata⟩ : String) := by
            simp [copy_operation_from_dest, hsp, hd, hmth]
          rw [he]
          exact hstub
        · have he : copy_operation_from_dest dest_spec s K
              = copyWrite (copyStub s (⟨bdata⟩ : String)) (⟨bdata⟩ : String)
                  (sLower (⟨a⟩ : String)) op := by
            simp [copy_operation_from_dest, hsp, hd, hmth]
          rw [he]
          intro item hit
          rcases hq : lookupKv (copyStub s (⟨bdata⟩ : String)) (⟨bdata⟩ : String) with _ | it2
          · simp only [copyWrite, hq] at hit
            exact absurd hit (by simp)
          · obtain ⟨kvs2, hk⟩ := hstub it2 hq
            subst hk
            simp only [copyWrite, hq] at hit
            rw [lookupKv_updKv_self (by simp [hq])] at hit
            exact ⟨_, (Option.some.inj hit).symm⟩
    · intro item hit
      rw [copyOp_lookup_ne (fun a' b' hsp' => by
        rw [hsp] at hsp'
        have h2 := Option.some.inj hsp'
        have hb : bdata = b' := congrArg Prod.snd h2
        exact hb ▸ hpc)] at hit
      exact hI item hit

theorem procKey_objInv {dest_spec : J} {legacy_ops : List String} {p : String}
    (hdest : ∀ it2, lookupKv (pathsKvs dest_spec) p = some it2 → ∃ kvs, it2 = J.obj kvs)
    {s : List (String × J)} (hI : objInv s p) (K : String) :
    objInv (procKey dest_spec legacy_ops s K) p := by
  unfold procKey
  rcases hPO : sStarts K "PATH_ONLY@" with _ | _
  · simp only [Bool.false_eq_true, if_false]
    by_cases hleg : K ∈ legacy_ops
    · rw [if_pos hleg]
      exact hI
    · rw [if_neg hleg]
      exact copyOp_objInv hdest hI K
  · simp only [if_true]
    by_cases hleg : legacy_ops.any
        (fun op => sEnds op ("@" ++ (sSplit '@' K).getD 1 "")) = true
    · rw [if_pos hleg]
      exact hI
    · rw [if_neg hleg]
      rcases hdl : lookupKv (pathsKvs dest_spec) ((sSplit '@' K).getD 1 "") with _ | item2
      · exact hI
      · by_cases hpo : (sSplit '@' K).getD 1 "" = p
        · intro item hit
          rw [hpo] at hdl
          rw [hpo, lookupKv_setKv_self] at hit
          exact hdest item ((Option.some.inj hit) ▸ hdl)
        · intro item hit
          rw [lookupKv_setKv_ne (fun hh => hpo hh.symm)] at hit
          exact hI item hit

theorem copyOp_establishes {dest_spec : J} {p m : String} {destOp pitem : J}
    (hm : m ∈ op_methods)
    (hpd : lookupKv (pathsKvs dest_spec) p = some pitem)
    (hop : jlookup pitem m = some destOp)
    {s : List (String × J)} (hI : objInv s p) :
    opInState (copy_operation_from_dest dest_spec s (sUpper m ++ "@" ++ p)) p m
      = some destOp := by
  have hsp : splitFirstCh '@' (sUpper m ++ "@" ++ p).data
      = some ((sUpper m).data, p.data) := by
    rw [data_key_append]
    exact splitFirstCh_append (method_no_at hm) _
  rcases hs : lookupKv s p with _ | item
  · have hq : lookupKv (copyStub s p) p = some (J.obj []) := lookupKv_copyStub_none hs
    simp only [copy_operation_from_dest, hsp, strMk_data, sLower_sUpper_method hm, hpd, hop]
    rw [copyWrite_obj hq]
    simp only [opInState]
    rw [lookupKv_updKv_self (by simp [hq])]
    simp [jlookup, lookupKv_setKv_self]
  · obtain ⟨ikvs, hik⟩ := hI item hs
    subst hik
    have hq : lookupKv (copyStub s p) p = some (J.obj ikvs) := lookupKv_copyStub_some hs
    simp only [copy_operation_from_dest, hsp, strMk_data, sLower_sUpper_method hm, hpd, hop]
    rw [copyWrite_obj hq]
    simp only [opInState]
    rw [lookupKv_updKv_self (by simp [hq])]
    simp [jlookup, lookupKv_setKv_self]

theorem retained_op_copied {diff source_spec dest_spec : J}
    {legacy_ops order : List String} {p m : String} {pitem destOp : J}
    (ho : orderOK diff source_spec dest_spec order)
    (hm : m ∈ op_methods)
    (hmem : (sUpper m ++ "@" ++ p) ∈ affectedKeys diff source_spec dest_spec)
    (hleg : (sUpper m ++ "@" ++ p) ∉ legacy_ops)
    (hpd : lookupKv (pathsKvs dest_spec) p = some pitem)
    (hop : jlookup pitem m = some destOp) :
    opAt (build_new_spec diff legacy_ops dest_spec source_spec order) p m = some destOp := by
  have hmemo : (sUpper m ++ "@" ++ p) ∈ order := (ho.2 _).mpr hmem
  obtain ⟨l1, l2, horder⟩ := List.append_of_mem hmemo
  have hpo : ∃ kvs, pitem = J.obj kvs :=
    (jlookup_isSome_obj hop).imp (fun kvs hh => hh.1)
  have hdest : ∀ it2, lookupKv (pathsKvs dest_spec) p = some it2 →
      ∃ kvs, it2 = J.obj kvs := by
    intro it2 h2
    rw [hpd] at h2
    exact (Option.some.inj h2) ▸ hpo
  have hfold : pathsKvs (build_new_spec diff legacy_ops dest_spec source_spec order)
      = order.foldl (procKey dest_spec legacy_ops) [] := rfl
  show (lookupKv (pathsKvs (build_new_spec diff legacy_ops dest_spec source_spec order)) p).bind
      (fun pitem => jlookup pitem m) = some destOp
  rw [hfold, horder, List.foldl_append, List.foldl_cons]
  have hI : objInv (List.foldl (procKey dest_spec legacy_ops) [] l1) p :=
    foldl_preserves (fun s K hi => @procKey_objInv dest_spec legacy_ops p hdest s hi K) l1 []
      (fun item hit => Option.noConfusion hit)
  have hest : opInState (procKey dest_spec legacy_ops
      (List.foldl (procKey dest_spec legacy_ops) [] l1) (sUpper m ++ "@" ++ p)) p m
      = some destOp := by
    unfold procKey
    rw [method_key_not_pathonly hm p]
    simp only [Bool.false_eq_true, if_false]
    rw [if_neg hleg]
    exact copyOp_establishes hm hpd hop hI
  exact foldl_preserves
    (fun s K hp => @procKey_preserves_opAt dest_spec legacy_ops p m destOp pitem hpd hop s hp K)
    l2 _ hest

theorem manualHit_of_changed {sp : List (String × J)} {p m : String} {op : J}
    (h : lookupKv sp p = none ∨ ∃ spitem, lookupKv sp p = some spitem ∧
      (jlookup spitem m = none ∨ ∃ sop, jlookup spitem m = some sop ∧
        dumpsJ op ≠ dumpsJ sop)) : manualHit sp p m op = true := by
  unfold manualHit
  rcases h with h1 | ⟨spitem, h1, h2⟩
  · rw [h1]
  · rw [h1]
    show (match jlookup spitem m with
          | none => true
          | some source_op => if dumpsJ op = dumpsJ source_op then false else true) = true
    rcases h2 with h2 | ⟨sop, h2, h3⟩
    · rw [h2]
    · rw [h2]
      simp [h3]

theorem detect_adds_key {source_spec dest_spec : J} {p m : String} {pitem destOp : J}
    (hm : m ∈ op_methods)
    (hpd : lookupKv (pathsKvs dest_spec) p = some pitem)
    (hop : jlookup pitem m = some destOp)
    (hhit : manualHit (pathsKvs source_spec) p m destOp = true) :
    (sUpper m ++ "@" ++ p) ∈ detect_manual_changes source_spec dest_spec := by
  unfold detect_manual_changes
  obtain ⟨mkvs, hpi, hmk⟩ := jlookup_isSome_obj hop
  subst hpi
  refine List.mem_flatMap.mpr ⟨(p, J.obj mkvs), lookupKv_mem hpd, ?_⟩
  show (sUpper m ++ "@" ++ p) ∈ List.filterMap _ mkvs
  refine List.mem_filterMap.mpr ⟨(m, destOp), lookupKv_mem hmk, ?_⟩
  show (if sLower m ∈ op_methods then _ else none) = _
  rw [sLower_method hm, if_pos hm, if_pos hhit]

theorem pathsKvs_jSetKey (j v : J) :
    pathsKvs (jSetKey j "components" v) = pathsKvs j := by
  cases j
  case obj kvs =>
    show pathsKvs (J.obj (setKv kvs "components" v)) = _
    unfold pathsKvs
    simp only [jlookup]
    rw [lookupKv_setKv_ne (by decide)]
  all_goals rfl

theorem pathsKvs_build_required (new_spec base_spec : J) :
    pathsKvs (build_required_components new_spec base_spec) = pathsKvs new_spec := by
  unfold build_required_components
  by_cases hb : (jlookup base_spec "components").isNone
  · rw [if_pos hb]
    exact pathsKvs_jSetKey _ _
  · rw [if_neg hb]
    exact pathsKvs_jSetKey _ _

/-- C3.  Union recall via deep-compare: an operation defined by the destination
at a (path, method) slot that is absent from the source, or whose sub-tree
differs from the source's under canonical order-independent serialization, has
its key `METHOD@path` in the affected set (no diff-report item needed), and —
when that key is not legacy — the operation appears fully copied in the output
document, for every valid iteration order of the affected set. -/
theorem claim_union_recall {diff source_spec dest_spec : J}
    {legacy_ops order : List String} {p m : String} {pitem destOp : J}
    (ho : orderOK diff source_spec dest_spec order)
    (hm : m ∈ op_methods)
    (hpd : lookupKv (pathsKvs dest_spec) p = some pitem)
    (hop : jlookup pitem m = some destOp)
    (hchanged : lookupKv (pathsKvs source_spec) p = none ∨
      ∃ spitem, lookupKv (pathsKvs source_spec) p = some spitem ∧
        (jlookup spitem m = none ∨
          ∃ sop, jlookup spitem m = some sop ∧ dumpsJ destOp ≠ dumpsJ sop))
    (hleg : (sUpper m ++ "@" ++ p) ∉ legacy_ops) :
    (sUpper m ++ "@" ++ p) ∈ affectedKeys diff source_spec dest_spec ∧
    opAt (build_new_spec diff legacy_ops dest_spec source_spec order) p m = some destOp := by
  have hmem : (sUpper m ++ "@" ++ p) ∈ affectedKeys diff source_spec dest_spec :=
    List.mem_append.mpr (Or.inr (detect_adds_key hm hpd hop (manualHit_of_changed hchanged)))
  exact ⟨hmem, retained_op_copied ho hm hmem hleg hpd hop⟩

/-- Destination document of the deep-compare witness: one fresh GET operation
absent from the source. -/
def w3Dest : J := .obj [("paths", .obj [("/w3", .obj [("get", .obj [("x", .str "v")])])])]

/-- Witness for C3 at a concrete input: the cosmetic-only operation is captured
with an empty diff report and copied into the output. -/
theorem claim_union_recall_witness :
    (sUpper "get" ++ "@" ++ "/w3") ∈ affectedKeys (J.obj []) (J.obj []) w3Dest ∧
    opAt (build_new_spec (J.obj []) [] w3Dest (J.obj [])
      ((affectedKeys (J.obj []) (J.obj []) w3Dest).dedup)) "/w3" "get"
      = some (J.obj [("x", .str "v")]) :=
  claim_union_recall (orderOK_dedup _ _ _) (by decide) rfl rfl (Or.inl rfl) (by simp)

/-- A destination operation carrying no `responses` field at all. -/
def w5Op : J := .obj [("summary", .str "s")]

/-- Destination document whose only operation lacks `responses`. -/
def w5Dest : J := .obj [("paths", .obj [("/a", .obj [("get", w5Op)])])]

/-- C5 counterexample: a full run of the pipeline (there are no repair passes
anywhere in the source) retains an operation whose `responses` field is absent,
so not every retained operation ends with a non-empty `responses` field. -/
theorem claim_response_invariant_cex :
    orderOK (J.obj []) (J.obj []) w5Dest ["GET@/a"] ∧
    opAt (run_pipeline (J.obj []) [] w5Dest (J.obj []) ["GET@/a"]) "/a" "get" = some w5Op ∧
    jlookup w5Op "responses" = none := by
  refine ⟨⟨by decide, ?_⟩, rfl, rfl⟩
  have ha : affectedKeys (J.obj []) (J.obj []) w5Dest = ["GET@/a"] := rfl
  rw [ha]
  exact fun k => Iff.rfl

/-- C5 amended.  The pipeline performs no response repair at all: a retained
operation is copied verbatim from the destination specification, so after the
full run its `responses` field is exactly the destination operation's
`responses` field — absent exactly when the destination's is. -/
theorem claim_response_field_verbatim {diff source_spec dest_spec : J}
    {legacy_ops order : List String} {p m : String} {pitem destOp : J}
    (ho : orderOK diff source_spec dest_spec order)
    (hm : m ∈ op_methods)
    (hmem : (sUpper m ++ "@" ++ p) ∈ affectedKeys diff source_spec dest_spec)
    (hleg : (sUpper m ++ "@" ++ p) ∉ legacy_ops)
    (hpd : lookupKv (pathsKvs dest_spec) p = some pitem)
    (hop : jlookup pitem m = some destOp) :
    opAt (run_pipeline diff legacy_ops dest_spec source_spec order) p m = some destOp ∧
    (opAt (run_pipeline diff legacy_ops dest_spec source_spec order) p m).bind
      (fun op => jlookup op "responses") = jlookup destOp "responses" := by
  have h1 : opAt (run_pipeline diff legacy_ops dest_spec source_spec order) p m
      = opAt (build_new_spec diff legacy_ops dest_spec source_spec order) p m := by
    unfold opAt run_pipeline
    rw [pathsKvs_build_required]
  have h2 := retained_op_copied ho hm hmem hleg hpd hop
  refine ⟨h1.trans h2, ?_⟩
  rw [h1, h2]
  rfl

/-- Witness for the amended C5 at a concrete input: the retained copy's
`responses` field equals the destination's (here: absent). -/
theorem claim_response_field_verbatim_witness :
    opAt (run_pipeline (J.obj []) [] w5Dest (J.obj [])
      ((affectedKeys (J.obj []) (J.obj []) w5Dest).dedup)) "/a" "get" = some w5Op ∧
    (opAt (run_pipeline (J.obj []) [] w5Dest (J.obj [])
      ((affectedKeys (J.obj []) (J.obj []) w5Dest).dedup)) "/a" "get").bind
      (fun op => jlookup op "responses") = jlookup w5Op "responses" :=
  claim_response_field_verbatim (orderOK_dedup _ _ _) (by decide) (by decide) (by simp) rfl rfl

/-- C8.  Permissive baseline: an absent or unreadable baseline file loads as
`{}` (that is what `load_spec_file` returns), which yields an empty Legacy Set;
and with an empty Legacy Set no affected operation is filtered out — every
affected operation the destination defines is copied into the output. -/
theorem claim_permissive_baseline :
    load_baseline_operations (J.obj []) = [] ∧
    ∀ (diff source_spec dest_spec : J) (order : List String) (p m : String)
      (pitem destOp : J),
      orderOK diff source_spec dest_spec order →
      m ∈ op_methods →
      (sUpper m ++ "@" ++ p) ∈ affectedKeys diff source_spec dest_spec →
      lookupKv (pathsKvs dest_spec) p = some pitem →
      jlookup pitem m = some destOp →
      opAt (build_new_spec diff [] dest_spec source_spec order) p m = some destOp := by
  refine ⟨rfl, ?_⟩
  intro diff source_spec dest_spec order p m pitem destOp ho hm hmem hpd hop
  exact retained_op_copied ho hm hmem (by simp) hpd hop

/-- Witness for C8 at a concrete input. -/
theorem claim_permissive_baseline_witness :
    opAt (build_new_spec (J.obj []) [] w3Dest (J.obj [])
      ((affectedKeys (J.obj []) (J.obj []) w3Dest).dedup)) "/w3" "get"
      = some (J.obj [("x", .str "v")]) :=
  claim_permissive_baseline.2 (J.obj []) (J.obj []) w3Dest
    ((affectedKeys (J.obj []) (J.obj []) w3Dest).dedup) "/w3" "get"
    (J.obj [("get", J.obj [("x", .str "v")])]) (J.obj [("x", .str "v")])
    (orderOK_dedup _ _ _) (by decide) (by decide) rfl rfl


theorem procKey_stub_preserved {dest_spec : J} {legacy_ops : List String} {p : String}
    (hnd : lookupKv (pathsKvs dest_spec) p = none) (s : List (String × J)) (K : String) :
    lookupKv (procKey dest_spec legacy_ops s K) p = lookupKv s p ∨
    (lookupKv s p = none ∧
      lookupKv (procKey dest_spec legacy_ops s K) p = some (J.obj [])) := by
  unfold procKey
  rcases hPO : sStarts K "PATH_ONLY@" with _ | _
  · simp only [Bool.false_eq_true, if_false]
    by_cases hleg : K ∈ legacy_ops
    · rw [if_pos hleg]
      exact Or.inl rfl
    · rw [if_neg hleg]
      rcases hsp : splitFirstCh '@' K.data with _ | ⟨a, bdata⟩
      · have he : copy_operation_from_dest dest_spec s K = s := by
          simp [copy_operation_from_dest, hsp]
        rw [he]
        exact Or.inl rfl
      · by_cases hpc : (⟨bdata⟩ : String) = p
        · subst hpc
          have he : copy_operation_from_dest dest_spec s K
              = copyStub s (⟨bdata⟩ : String) := by
            simp [copy_operation_from_dest, hsp, hnd]
          rw [he]
          rcases hs : lookupKv s (⟨bdata⟩ : String) with _ | it
          · exact Or.inr ⟨rfl, lookupKv_copyStub_none hs⟩
          · exact Or.inl (lookupKv_copyStub_some hs)
        · rw [copyOp_lookup_ne (fun a' b' hsp' => by
            rw [hsp] at hsp'
            have hb : bdata = b' := congrArg Prod.snd (Option.some.inj hsp')
            exact hb ▸ hpc)]
          exact Or.inl rfl
  · simp only [if_true]
    by_cases hleg : legacy_ops.any
        (fun op => sEnds op ("@" ++ (sSplit '@' K).getD 1 "")) = true
    · rw [if_pos hleg]
      exact Or.inl rfl
    · rw [if_neg hleg]
      rcases hdl : lookupKv (pathsKvs dest_spec) ((sSplit '@' K).getD 1 "") with _ | item2
      · exact Or.inl rfl
      · by_cases hpo : (sSplit '@' K).getD 1 "" = p
        · rw [hpo] at hdl
          rw [hnd] at hdl
          exact absurd hdl (by simp)
        · rw [lookupKv_setKv_ne (fun hh => hpo hh.symm)]
          exact Or.inl rfl

theorem copyOp_stub_establishes {dest_spec : J} {s : List (String × J)}
    {K p : String} {mdata : List Char}
    (hnd : lookupKv (pathsKvs dest_spec) p = none)
    (hsp : splitFirstCh '@' K.data = some (mdata, p.data))
    (hR : lookupKv s p = none ∨ lookupKv s p = some (J.obj [])) :
    lookupKv (copy_operation_from_dest dest_spec s K) p = some (J.obj []) := by
  have he : copy_operation_from_dest dest_spec s K = copyStub s p := by
    simp [copy_operation_from_dest, hsp, strMk_data, hnd]
  rw [he]
  rcases hR with h | h
  · exact lookupKv_copyStub_none h
  · exact lookupKv_copyStub_some h

/-- C10.  Empty path-item stub: for an affected `METHOD@path` key that is not
legacy, `copy_operation_from_dest` creates the entry for `path` before testing
the destination; when the destination does not define the path at all (a pure
removal flagged only by the diff report), the output document still ends the
run with an empty path item `{}` at that path instead of omitting the path. -/
theorem claim_empty_stub {diff source_spec dest_spec : J}
    {legacy_ops order : List String} {K p : String} {mdata : List Char}
    (ho : orderOK diff source_spec dest_spec order)
    (hK : K ∈ affectedKeys diff source_spec dest_spec)
    (hshape : sStarts K "PATH_ONLY@" = false)
    (hleg : K ∉ legacy_ops)
    (hsp : splitFirstCh '@' K.data = some (mdata, p.data))
    (hnd : lookupKv (pathsKvs dest_spec) p = none) :
    lookupKv (pathsKvs (build_new_spec diff legacy_ops dest_spec source_spec order)) p
      = some (J.obj []) := by
  have hmemo : K ∈ order := (ho.2 _).mpr hK
  obtain ⟨l1, l2, horder⟩ := List.append_of_mem hmemo
  show lookupKv (order.foldl (procKey dest_spec legacy_ops) []) p = some (J.obj [])
  rw [horder, List.foldl_append, List.foldl_cons]
  have hstep : ∀ (s : List (String × J)) (K' : String),
      (lookupKv s p = none ∨ lookupKv s p = some (J.obj [])) →
      (lookupKv (procKey dest_spec legacy_ops s K') p = none ∨
        lookupKv (procKey dest_spec legacy_ops s K') p = some (J.obj [])) := by
    intro s K' h
    rcases @procKey_stub_preserved dest_spec legacy_ops p hnd s K' with h2 | ⟨_, h2⟩
    · rw [h2]
      exact h
    · exact Or.inr h2
  have hR := foldl_preserves hstep l1 [] (Or.inl rfl)
  have hest : lookupKv (procKey dest_spec legacy_ops
      (List.foldl (procKey dest_spec legacy_ops) [] l1) K) p = some (J.obj []) := by
    unfold procKey
    rw [hshape]
    simp only [Bool.false_eq_true, if_false]
    rw [if_neg hleg]
    exact copyOp_stub_establishes hnd hsp hR
  have hkeep : ∀ (s : List (String × J)) (K' : String),
      lookupKv s p = some (J.obj []) →
      lookupKv (procKey dest_spec legacy_ops s K') p = some (J.obj []) := by
    intro s K' h
    rcases @procKey_stub_preserved dest_spec legacy_ops p hnd s K' with h2 | ⟨hnone, _⟩
    · exact h2.trans h
    · rw [h] at hnone
      exact absurd hnone (by simp)
  exact foldl_preserves hkeep l2 _ hest

/-- Diff report of the C10 witness: a pure removal, flagged only on the source
side, at a path the destination no longer defines. -/
def w10Diff : J := .obj [("differences", .arr
  [.obj [("sourceSpecEntityDetails", .arr [.obj [("location", .str "paths./gone.get")]])]])]

/-- Witness for C10 at a concrete input: the output retains an empty path item
at the removed path. -/
theorem claim_empty_stub_witness :
    lookupKv (pathsKvs (build_new_spec w10Diff [] (J.obj []) (J.obj [])
      ((affectedKeys w10Diff (J.obj []) (J.obj [])).dedup))) "/gone" = some (J.obj []) :=
  @claim_empty_stub w10Diff (J.obj []) (J.obj []) []
    ((affectedKeys w10Diff (J.obj []) (J.obj [])).dedup) "GET@/gone" "/gone" ['G', 'E', 'T']
    (orderOK_dedup _ _ _) (by decide) (by decide) (by simp) (by decide) rfl

theorem toNat_ofNat_valid {n : Nat} (h : n.isValidChar) : (Char.ofNat n).toNat = n := by
  rw [Char.ofNat, dif_pos h]
  rfl

theorem chU_chU (c : Char) : c.toUpper.toUpper = c.toUpper := by
  unfold Char.toUpper
  by_cases h : c.toNat ≥ 97 ∧ c.toNat ≤ 122
  · rw [if_pos h]
    have hv : Nat.isValidChar (c.toNat - 32) := Or.inl (by omega)
    have ht : (Char.ofNat (c.toNat - 32)).toNat = c.toNat - 32 := toNat_ofNat_valid hv
    rw [if_neg (by rw [ht]; omega)]
  · rw [if_neg h, if_neg h]

theorem chL_chL (c : Char) : c.toLower.toLower = c.toLower := by
  unfold Char.toLower
  by_cases h : c.toNat ≥ 65 ∧ c.toNat ≤ 90
  · rw [if_pos h]
    have hv : Nat.isValidChar (c.toNat + 32) := Or.inl (by omega)
    have ht : (Char.ofNat (c.toNat + 32)).toNat = c.toNat + 32 := toNat_ofNat_valid hv
    rw [if_neg (by rw [ht]; omega)]
  · rw [if_neg h, if_neg h]

theorem chU_chL (c : Char) : c.toLower.toUpper = c.toUpper := by
  unfold Char.toLower Char.toUpper
  by_cases h : c.toNat ≥ 65 ∧ c.toNat ≤ 90
  · rw [if_pos h]
    have hv : Nat.isValidChar (c.toNat + 32) := Or.inl (by omega)
    have ht : (Char.ofNat (c.toNat + 32)).toNat = c.toNat + 32 := toNat_ofNat_valid hv
    rw [if_pos (by rw [ht]; omega), if_neg (by omega), ht]
    have h2 : c.toNat + 32 - 32 = c.toNat := by omega
    rw [h2, Char.ofNat_toNat]
  · rw [if_neg h]

theorem sUpper_sLower (x : String) : sUpper (sLower x) = sUpper x := by
  unfold sUpper sLower
  congr 1
  show (x.data.map Char.toLower).map Char.toUpper = x.data.map Char.toUpper
  rw [List.map_map]
  exact List.map_congr_left (fun c _ => chU_chL c)

theorem sLower_sLower (x : String) : sLower (sLower x) = sLower x := by
  unfold sLower
  congr 1
  show (x.data.map Char.toLower).map Char.toLower = x.data.map Char.toLower
  rw [List.map_map]
  exact List.map_congr_left (fun c _ => chL_chL c)

theorem sUpper_fixed_of_mem {a : List Char} (h : ∀ c ∈ a, c.toUpper = c) :
    sUpper ⟨a⟩ = ⟨a⟩ := by
  unfold sUpper
  congr 1
  show a.map Char.toUpper = a
  exact (List.map_congr_left h).trans (List.map_id a)

theorem mem_sUpper_fixed {t : String} {c : Char} (h : c ∈ (sUpper t).data) :
    c.toUpper = c := by
  have h2 : c ∈ t.data.map Char.toUpper := h
  obtain ⟨x, _, rfl⟩ := List.mem_map.mp h2
  exact chU_chU x

theorem string_data_inj {s t : String} (h : s.data = t.data) : s = t := by
  cases s
  cases t
  exact congrArg String.mk h

theorem splitFirstCh_eq {c : Char} : ∀ {l a b : List Char},
    splitFirstCh c l = some (a, b) → l = a ++ c :: b ∧ c ∉ a := by
  intro l
  induction l with
  | nil =>
    intro a b h
    exact Option.noConfusion h
  | cons x xs ih =>
    intro a b h
    simp only [splitFirstCh] at h
    by_cases hx : x = c
    · rw [if_pos hx] at h
      have h2 := Option.some.inj h
      have ha : a = [] := (congrArg Prod.fst h2).symm
      have hb : b = xs := (congrArg Prod.snd h2).symm
      subst ha
      subst hb
      subst hx
      exact ⟨rfl, by simp⟩
    · rw [if_neg hx] at h
      rcases hs : splitFirstCh c xs with _ | ⟨a', b'⟩
      · rw [hs] at h
        simp at h
      · rw [hs] at h
        simp only [Option.map_some'] at h
        have h2 := Option.some.inj h
        have ha : a = x :: a' := (congrArg Prod.fst h2).symm
        have hb : b = b' := (congrArg Prod.snd h2).symm
        subst ha
        subst hb
        obtain ⟨h3, h4⟩ := ih hs
        refine ⟨by rw [h3]; rfl, ?_⟩
        intro hc
        rcases List.mem_cons.mp hc with hc | hc
        · exact hx hc.symm
        · exact h4 hc

theorem prefix_of_no_sep {a b u v : List Char} (heq : a ++ '@' :: b = u ++ '@' :: v)
    (hna : '@' ∉ a) : a <+: u := by
  have ha : a <+: (u ++ '@' :: v) := heq ▸ ⟨'@' :: b, rfl⟩
  by_cases hl : a.length ≤ u.length
  · exact List.prefix_of_prefix_length_le ha ⟨'@' :: v, rfl⟩ hl
  · exfalso
    have hu : (u ++ ['@']) <+: (u ++ '@' :: v) := ⟨v, by simp⟩
    have hl2 : (u ++ ['@']).length ≤ a.length := by
      rw [List.length_append]
      simp only [List.length_cons, List.length_nil]
      omega
    have hpa : (u ++ ['@']) <+: a := List.prefix_of_prefix_length_le hu ha hl2
    exact hna (hpa.subset (by simp))

theorem sStarts_append_self (a b : String) : sStarts (a ++ b) a = true := by
  unfold sStarts
  rw [String.data_append]
  exact (List.isPrefixOf_iff_prefix).mpr ⟨b.data, rfl⟩

theorem sEnds_of_data {z y : String} {w : List Char} (h : z.data = w ++ y.data) :
    sEnds z y = true := by
  unfold sEnds
  rw [h, List.reverse_append]
  exact (List.isPrefixOf_iff_prefix).mpr ⟨w.reverse, rfl⟩

theorem get_key_shape {loc K : String} (h : get_key_from_loc loc = some K) :
    (∃ t pa, K = sUpper t ++ "@" ++ pa) ∨ sStarts K "PATH_ONLY@" = true := by
  unfold get_key_from_loc at h
  by_cases h1 : sStarts loc "paths." = true
  · rw [if_pos h1] at h
    by_cases h2 : (sSplit '.' loc).length ≥ 3
    · rw [if_pos h2] at h
      exact Or.inl ⟨_, _, (Option.some.inj h).symm⟩
    · rw [if_neg h2] at h
      by_cases h3 : (sSplit '.' loc).length = 2
      · rw [if_pos h3] at h
        refine Or.inr ?_
        rw [← Option.some.inj h]
        exact sStarts_append_self "PATH_ONLY@" _
      · rw [if_neg h3] at h
        exact absurd h (by simp)
  · rw [if_neg h1] at h
    exact absurd h (by simp)

theorem affected_key_shape {diff source_spec dest_spec : J} {K : String}
    (h : K ∈ affectedKeys diff source_spec dest_spec) :
    (∃ t pa, K = sUpper t ++ "@" ++ pa) ∨ sStarts K "PATH_ONLY@" = true := by
  rcases List.mem_append.mp h with h | h
  · obtain ⟨it, _, hk⟩ := List.mem_filterMap.mp h
    unfold item_key at hk
    rcases hl : item_loc it with _ | loc
    · rw [hl] at hk
      simp at hk
    · rw [hl] at hk
      exact get_key_shape hk
  · obtain ⟨pi, _, hk⟩ := List.mem_flatMap.mp h
    obtain ⟨pstr, pv⟩ := pi
    rcases pv with _ | _ | _ | _ | _ | mkvs
    · exact absurd hk (List.not_mem_nil K)
    · exact absurd hk (List.not_mem_nil K)
    · exact absurd hk (List.not_mem_nil K)
    · exact absurd hk (List.not_mem_nil K)
    · exact absurd hk (List.not_mem_nil K)
    obtain ⟨mv, _, hmk⟩ := List.mem_filterMap.mp hk
    by_cases hm1 : sLower mv.1 ∈ op_methods
    · rw [if_pos hm1] at hmk
      by_cases hm2 : manualHit (pathsKvs source_spec) pstr mv.1 mv.2 = true
      · rw [if_pos hm2] at hmk
        exact Or.inl ⟨mv.1, pstr, (Option.some.inj hmk).symm⟩
      · rw [if_neg hm2] at hmk
        exact absurd hmk (by simp)
    · rw [if_neg hm1] at hmk
      exact absurd hmk (by simp)

theorem legacy_key_shape {baseline_spec : J} {K : String}
    (h : K ∈ load_baseline_operations baseline_spec) :
    ∃ m pa, m ∈ op_methods ∧ K = sUpper m ++ "@" ++ pa := by
  unfold load_baseline_operations at h
  by_cases ht : truthy baseline_spec = true
  · rw [if_pos ht] at h
    rcases hp : jlookup baseline_spec "paths" with _ | pv
    · rw [hp] at h
      simp at h
    · rw [hp] at h
      rcases pv with _ | _ | _ | _ | _ | pkvs
      · exact absurd h (List.not_mem_nil K)
      · exact absurd h (List.not_mem_nil K)
      · exact absurd h (List.not_mem_nil K)
      · exact absurd h (List.not_mem_nil K)
      · exact absurd h (List.not_mem_nil K)
      obtain ⟨pi, _, hk⟩ := List.mem_flatMap.mp h
      obtain ⟨pstr, pv2⟩ := pi
      rcases pv2 with _ | _ | _ | _ | _ | mkvs
      · exact absurd hk (List.not_mem_nil K)
      · exact absurd hk (List.not_mem_nil K)
      · exact absurd hk (List.not_mem_nil K)
      · exact absurd hk (List.not_mem_nil K)
      · exact absurd hk (List.not_mem_nil K)
      obtain ⟨mv, _, hmk⟩ := List.mem_filterMap.mp hk
      by_cases hm1 : sLower mv.1 ∈ op_methods
      · rw [if_pos hm1] at hmk
        refine ⟨sLower mv.1, pstr, hm1, ?_⟩
        rw [← Option.some.inj hmk, sUpper_sLower]
      · rw [if_neg hm1] at hmk
        exact absurd hmk (by simp)
  · rw [if_neg ht] at h
    simp at h

theorem opInState_copyStub_none {s : List (String × J)} {p k : String}
    (h : opInState s p k = none) : opInState (copyStub s p) p k = none := by
  rcases hs : lookupKv s p with _ | it
  · rw [opInState, lookupKv_copyStub_none hs]
    rfl
  · rw [opInState, lookupKv_copyStub_some hs]
    rw [opInState, hs] at h
    exact h

theorem procKey_no_legacy_method {dest_spec : J} {legacy_ops : List String} {m p : String}
    (hleg : (sUpper m ++ "@" ++ p) ∈ legacy_ops)
    {K : String}
    (hshape : (∃ t pa, K = sUpper t ++ "@" ++ pa) ∨ sStarts K "PATH_ONLY@" = true)
    {s : List (String × J)}
    (hP : ∀ k, sLower k = m → opInState s p k = none) :
    ∀ k, sLower k = m → opInState (procKey dest_spec legacy_ops s K) p k = none := by
  intro k hk
  unfold procKey
  rcases hPO : sStarts K "PATH_ONLY@" with _ | _
  · simp only [Bool.false_eq_true, if_false]
    by_cases hKleg : K ∈ legacy_ops
    · rw [if_pos hKleg]
      exact hP k hk
    · rw [if_neg hKleg]
      rcases hsp : splitFirstCh '@' K.data with _ | ⟨a, bdata⟩
      · have he : copy_operation_from_dest dest_spec s K = s := by
          simp [copy_operation_from_dest, hsp]
        rw [he]
        exact hP k hk
      · by_cases hpc : (⟨bdata⟩ : String) = p
        · rcases hshape with ⟨t, pa, hKt⟩ | hsh
          swap
          · rw [hPO] at hsh
            exact absurd hsh (by simp)
          obtain ⟨hKdata, hna⟩ := splitFirstCh_eq hsp
          have hKdata2 : K.data = (sUpper t).data ++ '@' :: pa.data := by
            rw [hKt, data_key_append]
          have hpre : a <+: (sUpper t).data :=
            prefix_of_no_sep (hKdata.symm.trans hKdata2) hna
          have hfix : ∀ c ∈ a, c.toUpper = c := fun c hc => mem_sUpper_fixed (hpre.subset hc)
          subst hpc
          rcases hd : lookupKv (pathsKvs dest_spec) (⟨bdata⟩ : String) with _ | pitem2
          · have he : copy_operation_from_dest dest_spec s K
                = copyStub s (⟨bdata⟩ : String) := by
              simp [copy_operation_from_dest, hsp, hd]
            rw [he]
            exact opInState_copyStub_none (hP k hk)
          · rcases hmth : jlookup pitem2 (sLower (⟨a⟩ : String)) with _ | op'
            · have he : copy_operation_from_dest dest_spec s K
                  = copyStub s (⟨bdata⟩ : String) := by
                simp [copy_operation_from_dest, hsp, hd, hmth]
              rw [he]
              exact opInState_copyStub_none (hP k hk)
            · have he : copy_operation_from_dest dest_spec s K
                  = copyWrite (copyStub s (⟨bdata⟩ : String)) (⟨bdata⟩ : String)
                      (sLower (⟨a⟩ : String)) op' := by
                simp [copy_operation_from_dest, hsp, hd, hmth]
              rw [he]
              have hstubbed := opInState_copyStub_none (hP k hk)
              rcases hq : lookupKv (copyStub s (⟨bdata⟩ : String)) (⟨bdata⟩ : String)
                  with _ | it2
              · have he2 : copyWrite (copyStub s (⟨bdata⟩ : String)) (⟨bdata⟩ : String)
                    (sLower (⟨a⟩ : String)) op' = copyStub s (⟨bdata⟩ : String) := by
                  simp [copyWrite, hq]
                rw [he2]
                exact hstubbed
              · rcases it2 with _ | _ | _ | _ | _ | ikvs
                · have he2 : copyWrite (copyStub s (⟨bdata⟩ : String)) (⟨bdata⟩ : String)
                      (sLower (⟨a⟩ : String)) op' = copyStub s (⟨bdata⟩ : String) := by
                    simp [copyWrite, hq]
                  rw [he2]
                  exact hstubbed
                · have he2 : copyWrite (copyStub s (⟨bdata⟩ : String)) (⟨bdata⟩ : String)
                      (sLower (⟨a⟩ : String)) op' = copyStub s (⟨bdata⟩ : String) := by
                    simp [copyWrite, hq]
                  rw [he2]
                  exact hstubbed
                · have he2 : copyWrite (copyStub s (⟨bdata⟩ : String)) (⟨bdata⟩ : String)
                      (sLower (⟨a⟩ : String)) op' = copyStub s (⟨bdata⟩ : String) := by
                    simp [copyWrite, hq]
                  rw [he2]
                  exact hstubbed
                · have he2 : copyWrite (copyStub s (⟨bdata⟩ : String)) (⟨bdata⟩ : String)
                      (sLower (⟨a⟩ : String)) op' = copyStub s (⟨bdata⟩ : String) := by
                    simp [copyWrite, hq]
                  rw [he2]
                  exact hstubbed
                · have he2 : copyWrite (copyStub s (⟨bdata⟩ : String)) (⟨bdata⟩ : String)
                      (sLower (⟨a⟩ : String)) op' = copyStub s (⟨bdata⟩ : String) := by
                    simp [copyWrite, hq]
                  rw [he2]
                  exact hstubbed
                · have he2 : copyWrite (copyStub s (⟨bdata⟩ : String)) (⟨bdata⟩ : String)
                      (sLower (⟨a⟩ : String)) op'
                      = updKv (copyStub s (⟨bdata⟩ : String)) (⟨bdata⟩ : String)
                          (.obj (setKv ikvs (sLower (⟨a⟩ : String)) op')) := by
                    simp [copyWrite, hq]
                  rw [he2, opInState, lookupKv_updKv_self (by simp [hq])]
                  show lookupKv (setKv ikvs (sLower (⟨a⟩ : String)) op') k = none
                  by_cases hkm : k = sLower (⟨a⟩ : String)
                  · exfalso
                    have hm1 : sLower (⟨a⟩ : String) = m := by
                      rw [← hk, hkm, sLower_sLower]
                    have hm2 : (⟨a⟩ : String) = sUpper m := by
                      rw [← hm1, sUpper_sLower]
                      exact (sUpper_fixed_of_mem hfix).symm
                    have hKeq : K = sUpper m ++ "@" ++ (⟨bdata⟩ : String) := by
                      refine string_data_inj ?_
                      rw [hKdata, data_key_append, ← hm2]
                    exact hKleg (hKeq ▸ hleg)
                  · rw [lookupKv_setKv_ne hkm]
                    rw [opInState, hq] at hstubbed
                    exact hstubbed
        · have he : lookupKv (copy_operation_from_dest dest_spec s K) p = lookupKv s p := by
            refine copyOp_lookup_ne (fun a' b' hsp' => ?_)
            rw [hsp] at hsp'
            have hb : bdata = b' := congrArg Prod.snd (Option.some.inj hsp')
            exact hb ▸ hpc
          rw [opInState, he]
          exact hP k hk
  · simp only [if_true]
    by_cases hleg2 : legacy_ops.any
        (fun op => sEnds op ("@" ++ (sSplit '@' K).getD 1 "")) = true
    · rw [if_pos hleg2]
      exact hP k hk
    · rw [if_neg hleg2]
      rcases hdl : lookupKv (pathsKvs dest_spec) ((sSplit '@' K).getD 1 "") with _ | item2
      · exact hP k hk
      · by_cases hpo : (sSplit '@' K).getD 1 "" = p
        · exfalso
          refine hleg2 (List.any_eq_true.mpr ⟨sUpper m ++ "@" ++ p, hleg, ?_⟩)
          rw [hpo]
          exact sEnds_of_data (by rw [data_key_append]; rfl)
        · rw [opInState, lookupKv_setKv_ne (fun hh => hpo hh.symm)]
          exact hP k hk

/-- A fold step preserves an invariant its step function preserves on the
list's own elements. -/
theorem foldl_preserves_mem {α β : Type} {f : α → β → α} {P : α → Prop} :
    ∀ (l : List β), (∀ s b, b ∈ l → P s → P (f s b)) → ∀ s, P s → P (l.foldl f s) := by
  intro l
  induction l with
  | nil =>
    intro _ s hs
    exact hs
  | cons b rest ih =>
    intro h s hs
    exact ih (fun s' b' hb' hs' => h s' b' (List.mem_cons_of_mem _ hb') hs')
      _ (h s b (List.mem_cons_self _ _) hs)

/-- C1.  Legacy exclusion: if `METHOD@path` is in the Legacy Set produced by
the Baseline Loader, the output document contains no operation at that
(path, method) address — under any method-key capitalization — even when the
key is in the affected set, and for every iteration order of that set.  Every
Legacy Set member has the `sUpper m ++ "@" ++ p` shape used here
(`legacy_key_shape`). -/
theorem claim_legacy_exclusion {baseline_spec diff source_spec dest_spec : J}
    {order : List String} {m p : String}
    (ho : orderOK diff source_spec dest_spec order)
    (hleg : (sUpper m ++ "@" ++ p) ∈ load_baseline_operations baseline_spec) :
    ∀ k, sLower k = m →
      opAt (build_new_spec diff (load_baseline_operations baseline_spec) dest_spec
        source_spec order) p k = none := by
  have hP0 : ∀ k, sLower k = m → opInState ([] : List (String × J)) p k = none :=
    fun k _ => rfl
  have hfin := foldl_preserves_mem order
    (fun s K hKo hs => @procKey_no_legacy_method dest_spec
      (load_baseline_operations baseline_spec) m p hleg K
      (affected_key_shape ((ho.2 K).mp hKo)) s hs) [] hP0
  intro k hk
  exact hfin k hk

/-- Baseline of the C1 witness: it defines GET /v1/users, so that operation is
legacy. -/
def w1Base : J := .obj [("paths", .obj [("/v1/users", .obj [("get", .obj [])])])]

/-- Destination of the C1 witness: GET /v1/users carries a changed description,
so deep-compare flags it; POST /v1/users is new. -/
def w1Dest : J := .obj [("paths", .obj [("/v1/users", .obj
  [("get", .obj [("description", .str "changed")]),
   ("post", .obj [("summary", .str "new")])])])]

/-- Witness for C1 at the spec's own scenario: GET /v1/users is flagged yet
absent from the output, while POST /v1/users (checked by evaluation) is kept. -/
theorem claim_legacy_exclusion_witness :
    opAt (build_new_spec (J.obj []) (load_baseline_operations w1Base) w1Dest (J.obj [])
      ((affectedKeys (J.obj []) (J.obj []) w1Dest).dedup)) "/v1/users" "get" = none ∧
    opAt (build_new_spec (J.obj []) (load_baseline_operations w1Base) w1Dest (J.obj [])
      ((affectedKeys (J.obj []) (J.obj []) w1Dest).dedup)) "/v1/users" "post"
      = some (J.obj [("summary", .str "new")]) :=
  ⟨claim_legacy_exclusion (orderOK_dedup _ _ _) (by decide) "get" rfl, rfl⟩

theorem lookupKv_of_mem_nodup {kvs : List (String × J)} {k : String} {v : J}
    (hmem : (k, v) ∈ kvs) (hnd : (kvs.map Prod.fst).Nodup) : lookupKv kvs k = some v := by
  induction kvs with
  | nil => cases hmem
  | cons kv rest ih =>
    obtain ⟨k', w⟩ := kv
    rcases List.mem_cons.mp hmem with h | h
    · rw [Prod.mk.injEq] at h
      obtain ⟨h1, h2⟩ := h
      subst h1
      subst h2
      simp [lookupKv]
    · have hk' : k' ≠ k := by
        intro hh
        subst hh
        have hmf : k' ∈ rest.map Prod.fst := List.mem_map.mpr ⟨(k', v), h, rfl⟩
        exact (List.nodup_cons.mp hnd).1 hmf
      simp only [lookupKv, if_neg hk']
      exact ih h (List.nodup_cons.mp hnd).2

/-- Well-formedness of a loaded document's paths object as a Python dict tree:
no duplicate path keys, no duplicate method keys (Python dictionaries cannot
contain duplicates; the association-list model can state it). -/
def wfPathsB (spec : J) : Bool :=
  decide (((pathsKvs spec).map Prod.fst).Nodup) &&
  (pathsKvs spec).all (fun pi =>
    match pi.2 with
    | J.obj kvs => decide ((kvs.map Prod.fst).Nodup)
    | _ => true)

theorem detect_self {spec : J} (hwf : wfPathsB spec = true) :
    detect_manual_changes spec spec = [] := by
  obtain ⟨hnd, hall⟩ := Bool.and_eq_true_iff.mp hwf
  unfold detect_manual_changes
  rw [List.flatMap_eq_nil_iff]
  intro pi hpi
  obtain ⟨pstr, pv⟩ := pi
  rcases pv with _ | _ | _ | _ | _ | mkvs
  · rfl
  · rfl
  · rfl
  · rfl
  · rfl
  show List.filterMap _ mkvs = []
  rw [List.filterMap_eq_nil_iff]
  intro mv hmv
  obtain ⟨mstr, mop⟩ := mv
  by_cases hm1 : sLower mstr ∈ op_methods
  · rw [if_pos hm1]
    have hlp : lookupKv (pathsKvs spec) pstr = some (J.obj mkvs) :=
      lookupKv_of_mem_nodup hpi (of_decide_eq_true hnd)
    have hndm : (mkvs.map Prod.fst).Nodup := by
      have h2 := List.all_eq_true.mp hall _ hpi
      exact of_decide_eq_true h2
    have hlm : lookupKv mkvs mstr = some mop := lookupKv_of_mem_nodup hmv hndm
    have hfalse : manualHit (pathsKvs spec) pstr mstr mop = false := by
      unfold manualHit
      rw [hlp]
      show (match jlookup (J.obj mkvs) mstr with
            | none => true
            | some source_op => if dumpsJ mop = dumpsJ source_op then false else true) = false
      show (match lookupKv mkvs mstr with
            | none => true
            | some source_op => if dumpsJ mop = dumpsJ source_op then false else true) = false
      rw [hlm]
      show (if dumpsJ mop = dumpsJ mop then false else true) = false
      rw [if_pos rfl]
    rw [hfalse]
    rfl
  · rw [if_neg hm1]

theorem resolveLoop_nil (base_spec : J) (fuel : Nat) (scanned : List String)
    (comps : List (String × J)) :
    resolveLoop base_spec fuel [] scanned comps = ([], scanned, comps) := by
  cases fuel <;> rfl

theorem jlookup_jSetKey_ne {j v : J} {k k2 : String} (h : k2 ≠ k) :
    jlookup (jSetKey j k v) k2 = jlookup j k2 := by
  cases j
  case obj kvs =>
    show jlookup (J.obj (setKv kvs k v)) k2 = _
    show lookupKv (setKv kvs k v) k2 = lookupKv kvs k2
    exact lookupKv_setKv_ne h kvs v
  all_goals rfl

theorem jlookup_build_required_paths (ns base_spec : J) :
    jlookup (build_required_components ns base_spec) "paths" = jlookup ns "paths" := by
  unfold build_required_components
  by_cases hb : (jlookup base_spec "components").isNone
  · rw [if_pos hb]
    exact jlookup_jSetKey_ne (by decide)
  · rw [if_neg hb]
    exact jlookup_jSetKey_ne (by decide)

theorem build_required_empty_components {kvs : List (String × J)} (base_spec : J)
    (hp : jlookup (J.obj kvs) "paths" = some (J.obj []))
    (hc : jlookup (J.obj kvs) "components" = none) :
    jlookup (build_required_components (J.obj kvs) base_spec) "components"
      = some (J.obj []) := by
  unfold build_required_components
  by_cases hb : (jlookup base_spec "components").isNone
  · rw [if_pos hb]
    show lookupKv (setKv kvs "components" (J.obj [])) "components" = some (J.obj [])
    exact lookupKv_setKv_self _ _ _
  · rw [if_neg hb]
    simp only [hc, hp]
    have hfr : findRefs ((some (J.obj [])).getD (J.obj [])) = [] := rfl
    rw [hfr, resolveLoop_nil]
    show lookupKv (setKv kvs "components" (J.obj [])) "components" = some (J.obj [])
    exact lookupKv_setKv_self _ _ _

/-- C6 counterexample: the diff-report text is the literal sentinel (no brace,
so `main` sets the diff data to `{}` without error), yet the output document is
not empty, because the deep-compare strategy still runs and picks up the
difference between source and destination. -/
theorem claim_sentinel_cex :
    load_diff_data (fun _ => none) "no changes" = J.obj [] ∧
    orderOK (load_diff_data (fun _ => none) "no changes") (J.obj []) w3Dest ["GET@/w3"] ∧
    jlookup (run_pipeline (load_diff_data (fun _ => none) "no changes") []
      w3Dest (J.obj []) ["GET@/w3"]) "paths" ≠ some (J.obj []) := by
  refine ⟨rfl, ⟨by decide, ?_⟩, ?_⟩
  · have ha : affectedKeys (load_diff_data (fun _ => none) "no changes")
        (J.obj []) w3Dest = ["GET@/w3"] := rfl
    rw [ha]
    exact fun k => Iff.rfl
  · intro h
    have he : jlookup (run_pipeline (load_diff_data (fun _ => none) "no changes") []
        w3Dest (J.obj []) ["GET@/w3"]) "paths"
        = some (J.obj [("/w3", J.obj [("get", J.obj [("x", J.str "v")])])]) := rfl
    rw [he] at h
    have hl := congrArg (fun o => match o with
      | some (J.obj kvs) => kvs.length
      | _ => 0) h
    exact absurd hl (by decide)

/-- C6 amended.  A sentinel plain-text diff report (no structured content, no
brace) makes the run proceed without error with an empty diff report, which
contributes no affected keys; the output document is empty — paths `{}` and
components `{}` — provided deep-compare also finds nothing, in particular
whenever the source specification equals the destination specification. -/
theorem claim_sentinel_amended (jsonParse : String → Option J) (txt : String)
    (hnb : txt.data.contains '{' = false)
    (legacy_ops : List String) (dest_spec : J) (hwf : wfPathsB dest_spec = true)
    (order : List String)
    (ho : orderOK (load_diff_data jsonParse txt) dest_spec dest_spec order) :
    load_diff_data jsonParse txt = J.obj [] ∧
    jlookup (run_pipeline (load_diff_data jsonParse txt) legacy_ops dest_spec dest_spec
      order) "paths" = some (J.obj []) ∧
    jlookup (run_pipeline (load_diff_data jsonParse txt) legacy_ops dest_spec dest_spec
      order) "components" = some (J.obj []) := by
  have h1 : load_diff_data jsonParse txt = J.obj [] := by
    unfold load_diff_data
    rw [hnb]
    rfl
  have ha : affectedKeys (load_diff_data jsonParse txt) dest_spec dest_spec = [] := by
    rw [h1]
    show diff_keys (J.obj []) ++ detect_manual_changes dest_spec dest_spec = []
    rw [detect_self hwf]
    rfl
  have horder : order = [] := by
    refine List.eq_nil_iff_forall_not_mem.mpr (fun k hk => ?_)
    have hm := (ho.2 k).mp hk
    rw [ha] at hm
    exact List.not_mem_nil k hm
  subst horder
  refine ⟨h1, ?_, ?_⟩
  · rw [h1]
    show jlookup (build_required_components
      (build_new_spec (J.obj []) legacy_ops dest_spec dest_spec []) dest_spec) "paths"
      = some (J.obj [])
    rw [jlookup_build_required_paths]
    rfl
  · rw [h1]
    show jlookup (build_required_components
      (build_new_spec (J.obj []) legacy_ops dest_spec dest_spec []) dest_spec) "components"
      = some (J.obj [])
    exact build_required_empty_components dest_spec rfl rfl

/-- Witness for the amended C6 at a concrete input where source equals
destination. -/
theorem claim_sentinel_amended_witness :
    load_diff_data (fun _ => none) "no changes" = J.obj [] ∧
    jlookup (run_pipeline (load_diff_data (fun _ => none) "no changes") []
      w3Dest w3Dest []) "paths" = some (J.obj []) ∧
    jlookup (run_pipeline (load_diff_data (fun _ => none) "no changes") []
      w3Dest w3Dest []) "components" = some (J.obj []) := by
  refine claim_sentinel_amended (fun _ => none) "no changes" (by decide) [] w3Dest
    (by decide) [] ⟨List.nodup_nil, ?_⟩
  intro k
  constructor
  · intro hk
    exact absurd hk (List.not_mem_nil k)
  · intro hk
    have ha : affectedKeys (load_diff_data (fun _ => none) "no changes") w3Dest w3Dest
        = [] := by decide
    rw [ha] at hk
    exact absurd hk (List.not_mem_nil k)

theorem updKv_updKv (kvs : List (String × J)) (t : String) (v v' : J) :
    updKv (updKv kvs t v) t v' = updKv kvs t v' := by
  induction kvs with
  | nil => rfl
  | cons kv rest ih =>
    obtain ⟨k, w⟩ := kv
    by_cases hk : k = t
    · simp [updKv, hk]
    · simp [updKv, hk, ih]

theorem delTokens_idem : ∀ (tp : List String) (doc : J), arrEraseAt doc tp = false →
    delTokens (delTokens doc tp) tp = delTokens doc tp := by
  intro tp
  induction tp with
  | nil =>
    intro doc _
    rcases doc <;> rfl
  | cons t rest ih =>
    intro doc hae
    rcases rest with _ | ⟨r, rest2⟩
    · rcases doc with _ | b | n | sv | xs | kvs
      · rfl
      · rfl
      · rfl
      · rfl
      · by_cases hint : _is_int_str t = true
        · have hget : xs[strToNat t]? = none := by
            rcases hg : xs[strToNat t]? with _ | x
            · rfl
            · exfalso
              have heq : arrEraseAt (J.arr xs) [t]
                  = (_is_int_str t && xs[strToNat t]?.isSome) := rfl
              rw [heq, hint, hg] at hae
              simp at hae
          have he : delTokens (J.arr xs) [t] = J.arr xs := by
            simp [delTokens, hint, hget]
          rw [he, he]
        · have he : delTokens (J.arr xs) [t] = J.arr xs := by
            simp [delTokens, hint]
          rw [he, he]
      · have he : delTokens (J.obj kvs) [t]
            = J.obj (kvs.filter (fun kv => kv.1 ≠ t)) := rfl
        rw [he]
        have he2 : delTokens (J.obj (kvs.filter (fun kv => kv.1 ≠ t))) [t]
            = J.obj ((kvs.filter (fun kv => kv.1 ≠ t)).filter (fun kv => kv.1 ≠ t)) := rfl
        rw [he2]
        refine congrArg J.obj (List.filter_eq_self.mpr ?_)
        intro a ha
        exact (List.mem_filter.mp ha).2
    · rcases doc with _ | b | n | sv | xs | kvs
      · rfl
      · rfl
      · rfl
      · rfl
      · by_cases hint : _is_int_str t = true
        · rcases hg : xs[strToNat t]? with _ | x
          · have he : delTokens (J.arr xs) (t :: r :: rest2) = J.arr xs := by
              simp [delTokens, hint, hg]
            rw [he, he]
          · have hlt : strToNat t < xs.length := by
              by_contra hnl
              rw [List.getElem?_eq_none (by omega)] at hg
              cases hg
            have hae2 : arrEraseAt x (r :: rest2) = false := by
              have heq : arrEraseAt (J.arr xs) (t :: r :: rest2)
                  = arrEraseAt x (r :: rest2) := by
                simp [arrEraseAt, hint, hg]
              rw [heq] at hae
              exact hae
            have he : delTokens (J.arr xs) (t :: r :: rest2)
                = J.arr (xs.set (strToNat t) (delTokens x (r :: rest2))) := by
              simp [delTokens, hint, hg]
            rw [he]
            have hg2 : (xs.set (strToNat t) (delTokens x (r :: rest2)))[strToNat t]?
                = some (delTokens x (r :: rest2)) := List.getElem?_set_self hlt
            have he2 : delTokens (J.arr (xs.set (strToNat t) (delTokens x (r :: rest2))))
                (t :: r :: rest2)
                = J.arr ((xs.set (strToNat t) (delTokens x (r :: rest2))).set (strToNat t)
                    (delTokens (delTokens x (r :: rest2)) (r :: rest2))) := by
              simp [delTokens, hint, hg2]
            rw [he2, ih _ hae2, List.set_set]
        · have he : delTokens (J.arr xs) (t :: r :: rest2) = J.arr xs := by
            simp [delTokens, hint]
          rw [he, he]
      · rcases hl : lookupKv kvs t with _ | v
        · have he : delTokens (J.obj kvs) (t :: r :: rest2) = J.obj kvs := by
            simp [delTokens, hl]
          rw [he, he]
        · have hae2 : arrEraseAt v (r :: rest2) = false := by
            have heq : arrEraseAt (J.obj kvs) (t :: r :: rest2)
                = arrEraseAt v (r :: rest2) := by
              simp [arrEraseAt, hl]
            rw [heq] at hae
            exact hae
          have he : delTokens (J.obj kvs) (t :: r :: rest2)
              = J.obj (updKv kvs t (delTokens v (r :: rest2))) := by
            simp [delTokens, hl]
          rw [he]
          have hl2 : lookupKv (updKv kvs t (delTokens v (r :: rest2))) t
              = some (delTokens v (r :: rest2)) := lookupKv_updKv_self (by simp [hl]) _
          have he2 : delTokens (J.obj (updKv kvs t (delTokens v (r :: rest2))))
              (t :: r :: rest2)
              = J.obj (updKv (updKv kvs t (delTokens v (r :: rest2))) t
                  (delTokens (delTokens v (r :: rest2)) (r :: rest2))) := by
            simp [delTokens, hl2]
          rw [he2, ih _ hae2, updKv_updKv]

/-- C9 counterexample: deleting the same sequence index twice is not the same
as deleting it once — the first delete shifts later elements down, so the
second delete removes a different element.  Full idempotence therefore fails. -/
theorem claim_delete_idempotence_cex :
    delete_path (J.arr [J.str "a", J.str "b"]) ["0"] = .ok (J.arr [J.str "b"]) ∧
    delete_path (J.arr [J.str "b"]) ["0"] = .ok (J.arr []) ∧
    J.arr [] ≠ J.arr [J.str "b"] := by
  refine ⟨rfl, rfl, ?_⟩
  intro h
  have hl := congrArg (fun j => match j with
    | J.arr xs => xs.length
    | _ => 0) h
  exact absurd hl (by decide)

/-- C9 amended.  The `delete` of Document Addressing (modelled from the spec;
only its helper `_is_int_str` survives in the source): an empty token path is
rejected with `InvalidPath`; every nonempty path succeeds (all other failures
degrade to no-op, nothing raises); a missing intermediate key is a silent
no-op; and double delete equals single delete whenever the descent does not
end in a sequence-element removal — sequence deletions shift indices and are
the one non-idempotent case, as the counterexample shows. -/
theorem claim_delete_semantics_amended :
    (∀ doc : J, delete_path doc [] = .error .invalidPath) ∧
    (∀ (doc : J) (tp : List String), tp ≠ [] → ∃ d, delete_path doc tp = .ok d) ∧
    (∀ (kvs : List (String × J)) (t r : String) (rest : List String),
      lookupKv kvs t = none → delTokens (J.obj kvs) (t :: r :: rest) = J.obj kvs) ∧
    (∀ (sv : String) (t : String) (tp : List String),
      delTokens (J.str sv) (t :: tp) = J.str sv) ∧
    (∀ (doc : J) (tp : List String), arrEraseAt doc tp = false →
      (delete_path doc tp).bind (fun d => delete_path d tp) = delete_path doc tp) := by
  refine ⟨fun _ => rfl, ?_, ?_, ?_, ?_⟩
  · intro doc tp htp
    rcases tp with _ | ⟨t, rest⟩
    · exact absurd rfl htp
    · exact ⟨delTokens doc (t :: rest), rfl⟩
  · intro kvs t r rest hl
    simp [delTokens, hl]
  · intro sv t tp
    rcases tp with _ | ⟨r, rest⟩ <;> rfl
  · intro doc tp hae
    rcases tp with _ | ⟨t, rest⟩
    · rfl
    · show (Except.ok (delTokens doc (t :: rest))).bind
        (fun d => delete_path d (t :: rest)) = Except.ok (delTokens doc (t :: rest))
      show delete_path (delTokens doc (t :: rest)) (t :: rest)
        = Except.ok (delTokens doc (t :: rest))
      show Except.ok (delTokens (delTokens doc (t :: rest)) (t :: rest))
        = Except.ok (delTokens doc (t :: rest))
      rw [delTokens_idem _ _ hae]

/-- Witness for the amended C9 at concrete inputs. -/
theorem claim_delete_semantics_amended_witness :
    delete_path (J.obj [("a", J.str "x")]) [] = .error .invalidPath ∧
    (∃ d, delete_path (J.obj [("a", J.str "x")]) ["zz", "b"] = .ok d) ∧
    delTokens (J.obj [("a", J.str "x")]) ["zz", "b"] = J.obj [("a", J.str "x")] ∧
    (delete_path (J.obj [("a", J.obj [("b", J.str "x"), ("c", J.str "y")])]) ["a", "b"]).bind
      (fun d => delete_path d ["a", "b"])
      = delete_path (J.obj [("a", J.obj [("b", J.str "x"), ("c", J.str "y")])]) ["a", "b"] :=
  ⟨claim_delete_semantics_amended.1 _,
   claim_delete_semantics_amended.2.1 _ ["zz", "b"] (by simp),
   claim_delete_semantics_amended.2.2.1 [("a", J.str "x")] "zz" "b" [] rfl,
   claim_delete_semantics_amended.2.2.2.2 _ ["a", "b"] rfl⟩

theorem le_length_flatMap {α β : Type} (f : α → List β) :
    ∀ (l : List α) (x : α), x ∈ l → (f x).length ≤ (l.flatMap f).length := by
  intro l
  induction l with
  | nil =>
    intro x hx
    cases hx
  | cons a l2 ih =>
    intro x hx
    rw [List.flatMap_cons, List.length_append]
    rcases List.mem_cons.mp hx with rfl | hx2
    · omega
    · have := ih x hx2
      omega

theorem compLookup_mem_compDefs {base_spec : J} {c n : String} {d : J}
    (h : compLookup base_spec c n = some d) : d ∈ compDefs base_spec := by
  unfold compLookup at h
  rcases hc : lookupKv (baseComps base_spec) c with _ | cv
  · rw [hc] at h
    cases h
  · rw [hc] at h
    rcases cv with _ | _ | _ | _ | _ | names
    · exact absurd h (by simp)
    · exact absurd h (by simp)
    · exact absurd h (by simp)
    · exact absurd h (by simp)
    · exact absurd h (by simp)
    refine List.mem_flatMap.mpr ⟨(c, J.obj names), lookupKv_mem hc, ?_⟩
    show d ∈ names.map Prod.snd
    exact List.mem_map.mpr ⟨(n, d), lookupKv_mem h, rfl⟩

theorem filter_cons_out {r : String} {scanned : List String} (hrs : r ∉ scanned) :
    ∀ l : List String, l.Nodup → r ∈ l →
    (l.filter (fun x => x ∉ r :: scanned)).length + 1
      = (l.filter (fun x => x ∉ scanned)).length := by
  intro l
  induction l with
  | nil =>
    intro _ hr
    cases hr
  | cons a l2 ih =>
    intro hnd hr
    obtain ⟨hal2, hnd2⟩ := List.nodup_cons.mp hnd
    rw [List.filter_cons, List.filter_cons]
    rcases List.mem_cons.mp hr with rfl | hr2
    · rw [if_neg (by simp), if_pos (by simp [hrs])]
      have hcong : List.filter (fun x => decide (x ∉ r :: scanned)) l2
          = List.filter (fun x => decide (x ∉ scanned)) l2 := by
        refine List.filter_congr ?_
        intro x hx
        have hxa : x ≠ r := fun hh => hal2 (hh ▸ hx)
        refine decide_eq_decide.mpr ?_
        simp [List.mem_cons, hxa]
      rw [hcong]
      simp [List.length_cons]
    · have har : a ≠ r := fun hh => hal2 (hh ▸ hr2)
      by_cases has : a ∈ scanned
      · rw [if_neg (by simp [has]), if_neg (by simp [has])]
        exact ih hnd2 hr2
      · rw [if_pos (by simp [List.mem_cons, has, har]), if_pos (by simp [has])]
        have := ih hnd2 hr2
        simp only [List.length_cons]
        omega

theorem resolveLoop_empties (base_spec : J) (U : List String)
    (hU : ∀ d ∈ compDefs base_spec, ∀ r ∈ findRefs d, r ∈ U) :
    ∀ (fuel : Nat) (queue scanned : List String) (comps : List (String × J)),
    (∀ r ∈ queue, r ∈ U) →
    queue.length + (1 + pushBound base_spec) *
      (U.dedup.filter (fun x => x ∉ scanned)).length ≤ fuel →
    (resolveLoop base_spec fuel queue scanned comps).1 = [] := by
  intro fuel
  induction fuel with
  | zero =>
    intro queue scanned comps hq hf
    have hq0 : queue.length = 0 := by omega
    rw [List.length_eq_zero] at hq0
    subst hq0
    rfl
  | succ fuel ih =>
    intro queue scanned comps hq hf
    rcases queue with _ | ⟨r, queue'⟩
    · rfl
    · have hstep : resolveLoop base_spec (fuel + 1) (r :: queue') scanned comps
          = if r ∈ scanned then resolveLoop base_spec fuel queue' scanned comps
            else match parseRef r with
              | none => resolveLoop base_spec fuel queue' (r :: scanned) comps
              | some cn =>
                match compLookup base_spec cn.1 cn.2 with
                | none => resolveLoop base_spec fuel queue' (r :: scanned) comps
                | some comp_def =>
                  if (compsAt comps cn.1 cn.2).isSome then
                    resolveLoop base_spec fuel queue' (r :: scanned) comps
                  else
                    resolveLoop base_spec fuel (queue' ++ findRefs comp_def) (r :: scanned)
                      (compsInsert comps cn.1 cn.2 comp_def) := rfl
      have hq' : ∀ x ∈ queue', x ∈ U := fun x hx => hq x (List.mem_cons_of_mem _ hx)
      by_cases hrs : r ∈ scanned
      · rw [hstep, if_pos hrs]
        refine ih queue' scanned comps hq' ?_
        simp only [List.length_cons] at hf
        omega
      · have hrU : r ∈ U := hq r (List.mem_cons_self _ _)
        have hrUd : r ∈ U.dedup := List.mem_dedup.mpr hrU
        have hcount := filter_cons_out hrs U.dedup (List.nodup_dedup U) hrUd
        have hexp : (1 + pushBound base_spec) *
            (U.dedup.filter (fun x => x ∉ scanned)).length
            = (1 + pushBound base_spec) *
              (U.dedup.filter (fun x => x ∉ r :: scanned)).length
              + (1 + pushBound base_spec) := by
          rw [← hcount, Nat.mul_succ]
        have hnopush : queue'.length + (1 + pushBound base_spec) *
            (U.dedup.filter (fun x => x ∉ r :: scanned)).length ≤ fuel := by
          simp only [List.length_cons] at hf
          rw [hexp] at hf
          generalize (1 + pushBound base_spec) *
            (U.dedup.filter (fun x => x ∉ r :: scanned)).length = k at hf ⊢
          omega
        rcases hpr : parseRef r with _ | cn
        · have he : resolveLoop base_spec (fuel + 1) (r :: queue') scanned comps
              = resolveLoop base_spec fuel queue' (r :: scanned) comps := by
            simp [hstep, hrs, hpr]
          rw [he]
          exact ih queue' (r :: scanned) comps hq' hnopush
        · rcases hcl : compLookup base_spec cn.1 cn.2 with _ | comp_def
          · have he : resolveLoop base_spec (fuel + 1) (r :: queue') scanned comps
                = resolveLoop base_spec fuel queue' (r :: scanned) comps := by
              simp [hstep, hrs, hpr, hcl]
            rw [he]
            exact ih queue' (r :: scanned) comps hq' hnopush
          · by_cases hca : (compsAt comps cn.1 cn.2).isSome
            · have he : resolveLoop base_spec (fuel + 1) (r :: queue') scanned comps
                  = resolveLoop base_spec fuel queue' (r :: scanned) comps := by
                simp [hstep, hrs, hpr, hcl, hca]
              rw [he]
              exact ih queue' (r :: scanned) comps hq' hnopush
            · have he : resolveLoop base_spec (fuel + 1) (r :: queue') scanned comps
                  = resolveLoop base_spec fuel (queue' ++ findRefs comp_def) (r :: scanned)
                      (compsInsert comps cn.1 cn.2 comp_def) := by
                simp [hstep, hrs, hpr, hcl, hca]
              rw [he]
              have hd : comp_def ∈ compDefs base_spec := compLookup_mem_compDefs hcl
              have hlen : (findRefs comp_def).length ≤ pushBound base_spec :=
                le_length_flatMap findRefs (compDefs base_spec) comp_def hd
              refine ih (queue' ++ findRefs comp_def) (r :: scanned)
                (compsInsert comps cn.1 cn.2 comp_def) ?_ ?_
              · intro x hx
                rcases List.mem_append.mp hx with hx | hx
                · exact hq' x hx
                · exact hU comp_def hd x hx
              · rw [List.length_append]
                simp only [List.length_cons] at hf
                rw [hexp] at hf
                generalize (1 + pushBound base_spec) *
                  (U.dedup.filter (fun x => x ∉ r :: scanned)).length = k at hf ⊢
                omega

/-- Cyclic scenario: schema `A` references `B`. -/
def cycA : J :=
  J.obj [("properties", J.obj [("b", J.obj [("$ref", J.str "#/components/schemas/B")])])]

/-- Cyclic scenario: schema `B` references `A` back, closing the cycle. -/
def cycB : J :=
  J.obj [("properties", J.obj [("a", J.obj [("$ref", J.str "#/components/schemas/A")])])]

/-- Cyclic scenario: a retained operation referencing schema `A`. -/
def cycOp : J :=
  J.obj [("responses", J.obj [("200", J.obj [("$ref", J.str "#/components/schemas/A")])])]

/-- Cyclic scenario: the output document before component pruning. -/
def cycNs : J :=
  J.obj [("openapi", J.str "3.0.0"), ("info", J.obj []),
    ("paths", J.obj [("/c", J.obj [("get", cycOp)])])]

/-- Cyclic scenario: a base specification whose schemas `A` and `B` reference
each other. -/
def cycBase : J :=
  J.obj [("components", J.obj [("schemas", J.obj [("A", cycA), ("B", cycB)])])]

/-- With fuel `resolveFuel`, the worklist loop always drains its queue: the
returned remaining queue is empty, for every input.  So the fuel is an
analysis device, not a behavioural cutoff. -/
theorem resolveLoop_fuel_empties (base_spec : J) (seeds : List String)
    (comps0 : List (String × J)) :
    (resolveLoop base_spec (resolveFuel base_spec seeds) seeds [] comps0).1 = [] := by
  refine resolveLoop_empties base_spec (refUniverse base_spec seeds) ?_
    (resolveFuel base_spec seeds) seeds [] comps0 ?_ ?_
  · intro d hd r hr
    exact List.mem_append.mpr (Or.inr (List.mem_flatMap.mpr ⟨d, hd, hr⟩))
  · intro r hr
    exact List.mem_append.mpr (Or.inl hr)
  · have hfe : (refUniverse base_spec seeds).dedup.filter
        (fun x => x ∉ ([] : List String)) = (refUniverse base_spec seeds).dedup := by
      simp
    unfold resolveFuel
    rw [hfe]

/-- C7: the resolver worklist of `build_required_components` terminates on every
input: with the fuel `resolveFuel` the loop always reaches the empty-queue
terminal state (the visited-set check bounds the iterations even under cyclic
references), so the fuel is an analysis device, not a behavioural cutoff.  On
the concrete mutual cycle `A ↔ B` reachable from a retained operation, the run
terminates and copies each of `A` and `B` into the output component dictionary
exactly once. -/
theorem claim_resolver_termination :
    (∀ (base_spec : J) (seeds : List String) (comps0 : List (String × J)),
      (resolveLoop base_spec (resolveFuel base_spec seeds) seeds [] comps0).1 = [])
    ∧ build_required_components cycNs cycBase
        = J.obj [("openapi", J.str "3.0.0"), ("info", J.obj []),
            ("paths", J.obj [("/c", J.obj [("get", cycOp)])]),
            ("components", J.obj [("schemas", J.obj [("A", cycA), ("B", cycB)])])] :=
  ⟨fun base_spec seeds comps0 => resolveLoop_fuel_empties base_spec seeds comps0, rfl⟩

/-- References transitively reachable from the seed references by resolving a
reference in the base specification and following the references occurring in
the resolved component definition.  This is the specification-side closure that
`build_required_components` is claimed to compute exactly. -/
inductive Reach (base_spec : J) (seeds : List String) : String → Prop where
  | seed (r : String) : r ∈ seeds → Reach base_spec seeds r
  | step (r r' c n : String) (d : J) :
      Reach base_spec seeds r → parseRef r = some (c, n) →
      compLookup base_spec c n = some d → r' ∈ findRefs d →
      Reach base_spec seeds r'

/-- The entry list of a document's `components` object (empty when absent or
not an object). -/
def componentsOf (doc : J) : List (String × J) :=
  match jlookup doc "components" with
  | some (.obj kvs) => kvs
  | _ => []

/-- Invariant of the resolver worklist loop: queue and visited entries are
reachable; the component dictionary stores exactly base-specification content
at reachable, parseable coordinates; visited resolvable references are already
stored; references of stored definitions are enqueued or visited; stored
category values are objects; seeds are enqueued or visited. -/
def ResolveInv (base_spec : J) (seeds : List String)
    (queue scanned : List String) (comps : List (String × J)) : Prop :=
  (∀ r ∈ queue, Reach base_spec seeds r) ∧
  (∀ r ∈ scanned, Reach base_spec seeds r) ∧
  (∀ c n d, compsAt comps c n = some d →
    compLookup base_spec c n = some d ∧
      ∃ r, Reach base_spec seeds r ∧ parseRef r = some (c, n)) ∧
  (∀ r ∈ scanned, ∀ c n, parseRef r = some (c, n) →
    compLookup base_spec c n ≠ none → (compsAt comps c n).isSome = true) ∧
  (∀ c n d, compsAt comps c n = some d →
    ∀ r' ∈ findRefs d, r' ∈ queue ∨ r' ∈ scanned) ∧
  (∀ p ∈ comps, ∃ names, p.2 = J.obj names) ∧
  (∀ r ∈ seeds, r ∈ queue ∨ r ∈ scanned)

theorem mem_updKv {kvs : List (String × J)} {t : String} {v : J} {p : String × J}
    (h : p ∈ updKv kvs t v) : p ∈ kvs ∨ p = (t, v) := by
  induction kvs with
  | nil => exact absurd h (List.not_mem_nil p)
  | cons kv rest ih =>
    obtain ⟨k, w⟩ := kv
    by_cases hk : k = t
    · rw [updKv, if_pos hk] at h
      rcases List.mem_cons.mp h with rfl | h2
      · exact Or.inr (by rw [hk])
      · exact Or.inl (List.mem_cons_of_mem _ h2)
    · rw [updKv, if_neg hk] at h
      rcases List.mem_cons.mp h with rfl | h2
      · exact Or.inl (List.mem_cons_self _ _)
      · rcases ih h2 with h3 | h3
        · exact Or.inl (List.mem_cons_of_mem _ h3)
        · exact Or.inr h3

theorem compsInsert_objInv {comps : List (String × J)} {c n : String} {d : J}
    (hobj : ∀ p ∈ comps, ∃ names, p.2 = J.obj names) :
    ∀ p ∈ compsInsert comps c n d, ∃ names, p.2 = J.obj names := by
  intro p hp
  unfold compsInsert at hp
  rcases hc : lookupKv comps c with _ | v
  · rw [hc] at hp
    rcases List.mem_append.mp hp with h | h
    · exact hobj p h
    · rcases List.mem_cons.mp h with rfl | h2
      · exact ⟨[(n, d)], rfl⟩
      · exact absurd h2 (List.not_mem_nil p)
  · rw [hc] at hp
    obtain ⟨names, hv⟩ := hobj (c, v) (lookupKv_mem hc)
    subst hv
    rcases mem_updKv hp with h | h
    · exact hobj p h
    · subst h
      exact ⟨names ++ [(n, d)], rfl⟩

theorem compsAt_compsInsert_self {comps : List (String × J)} {c n : String} (d : J)
    (hobj : ∀ p ∈ comps, ∃ names, p.2 = J.obj names)
    (hnone : compsAt comps c n = none) :
    compsAt (compsInsert comps c n d) c n = some d := by
  rcases hc : lookupKv comps c with _ | v
  · have h1 : lookupKv (comps ++ [(c, J.obj [(n, d)])]) c = some (J.obj [(n, d)]) := by
      rw [lookupKv_append_none hc]
      simp [lookupKv]
    simp [compsInsert, hc, compsAt, h1, lookupKv]
  · obtain ⟨names, hv⟩ := hobj (c, v) (lookupKv_mem hc)
    subst hv
    have hnn : lookupKv names n = none := by
      rw [compsAt, hc] at hnone
      exact hnone
    have h1 : lookupKv (updKv comps c (J.obj (names ++ [(n, d)]))) c
        = some (J.obj (names ++ [(n, d)])) :=
      lookupKv_updKv_self (by rw [hc]; rfl) _
    have h2 : lookupKv (names ++ [(n, d)]) n = some d := by
      rw [lookupKv_append_none hnn]
      simp [lookupKv]
    simp [compsInsert, hc, compsAt, h1, h2]

theorem compsAt_compsInsert_ne {comps : List (String × J)} {c n c' n' : String} (d : J)
    (hobj : ∀ p ∈ comps, ∃ names, p.2 = J.obj names)
    (hne : ¬(c' = c ∧ n' = n)) :
    compsAt (compsInsert comps c n d) c' n' = compsAt comps c' n' := by
  by_cases hcc : c' = c
  · subst hcc
    have hnn : n' ≠ n := fun hh => hne ⟨rfl, hh⟩
    rcases hc : lookupKv comps c' with _ | v
    · have h1 : lookupKv (comps ++ [(c', J.obj [(n, d)])]) c'
          = some (J.obj [(n, d)]) := by
        rw [lookupKv_append_none hc]
        simp [lookupKv]
      have h2 : lookupKv [(n, d)] n' = none := by
        simp [lookupKv, Ne.symm hnn]
      simp [compsInsert, hc, compsAt, h1, h2]
    · obtain ⟨names, hv⟩ := hobj (c', v) (lookupKv_mem hc)
      subst hv
      have h1 : lookupKv (updKv comps c' (J.obj (names ++ [(n, d)]))) c'
          = some (J.obj (names ++ [(n, d)])) :=
        lookupKv_updKv_self (by rw [hc]; rfl) _
      have h2 : lookupKv (names ++ [(n, d)]) n' = lookupKv names n' :=
        lookupKv_append_single_ne (fun hh => hnn hh.symm) names d
      simp [compsInsert, hc, compsAt, h1, h2]
  · rcases hc : lookupKv comps c with _ | v
    · have h1 : lookupKv (comps ++ [(c, J.obj [(n, d)])]) c'
          = lookupKv comps c' :=
        lookupKv_append_single_ne (fun hh => hcc hh.symm) comps _
      simp only [compsInsert, hc, compsAt, h1]
    · obtain ⟨names, hv⟩ := hobj (c, v) (lookupKv_mem hc)
      subst hv
      have h1 : lookupKv (updKv comps c (J.obj (names ++ [(n, d)]))) c'
          = lookupKv comps c' :=
        lookupKv_updKv_ne hcc _
      simp only [compsInsert, hc, compsAt, h1]

theorem resolveLoop_inv (base_spec : J) (seeds : List String) :
    ∀ (fuel : Nat) (queue scanned : List String) (comps : List (String × J)),
    ResolveInv base_spec seeds queue scanned comps →
    ResolveInv base_spec seeds
      (resolveLoop base_spec fuel queue scanned comps).1
      (resolveLoop base_spec fuel queue scanned comps).2.1
      (resolveLoop base_spec fuel queue scanned comps).2.2 := by
  intro fuel
  induction fuel with
  | zero =>
    intro queue scanned comps hInv
    exact hInv
  | succ fuel ih =>
    intro queue scanned comps hInv
    rcases queue with _ | ⟨r, queue'⟩
    · exact hInv
    · obtain ⟨h1, h2, h3, h4, h5, h6, h7⟩ := hInv
      have hstep : resolveLoop base_spec (fuel + 1) (r :: queue') scanned comps
          = if r ∈ scanned then resolveLoop base_spec fuel queue' scanned comps
            else match parseRef r with
              | none => resolveLoop base_spec fuel queue' (r :: scanned) comps
              | some cn =>
                match compLookup base_spec cn.1 cn.2 with
                | none => resolveLoop base_spec fuel queue' (r :: scanned) comps
                | some comp_def =>
                  if (compsAt comps cn.1 cn.2).isSome then
                    resolveLoop base_spec fuel queue' (r :: scanned) comps
                  else
                    resolveLoop base_spec fuel (queue' ++ findRefs comp_def) (r :: scanned)
                      (compsInsert comps cn.1 cn.2 comp_def) := rfl
      have h1' : ∀ x ∈ queue', Reach base_spec seeds x :=
        fun x hx => h1 x (List.mem_cons_of_mem _ hx)
      have hRr : Reach base_spec seeds r := h1 r (List.mem_cons_self _ _)
      by_cases hrs : r ∈ scanned
      · have he : resolveLoop base_spec (fuel + 1) (r :: queue') scanned comps
            = resolveLoop base_spec fuel queue' scanned comps := by
          rw [hstep, if_pos hrs]
        rw [he]
        refine ih queue' scanned comps ⟨h1', h2, h3, h4, ?_, h6, ?_⟩
        · intro c n d hd r' hr'
          rcases h5 c n d hd r' hr' with h | h
          · rcases List.mem_cons.mp h with rfl | h2'
            · exact Or.inr hrs
            · exact Or.inl h2'
          · exact Or.inr h
        · intro x hx
          rcases h7 x hx with h | h
          · rcases List.mem_cons.mp h with rfl | h2'
            · exact Or.inr hrs
            · exact Or.inl h2'
          · exact Or.inr h
      · have h2' : ∀ x ∈ r :: scanned, Reach base_spec seeds x := by
          intro x hx
          rcases List.mem_cons.mp hx with rfl | hx2
          · exact hRr
          · exact h2 x hx2
        have h5' : ∀ c n d, compsAt comps c n = some d →
            ∀ r' ∈ findRefs d, r' ∈ queue' ∨ r' ∈ r :: scanned := by
          intro c n d hd r' hr'
          rcases h5 c n d hd r' hr' with h | h
          · rcases List.mem_cons.mp h with rfl | h2'
            · exact Or.inr (List.mem_cons_self _ _)
            · exact Or.inl h2'
          · exact Or.inr (List.mem_cons_of_mem _ h)
        have h7' : ∀ x ∈ seeds, x ∈ queue' ∨ x ∈ r :: scanned := by
          intro x hx
          rcases h7 x hx with h | h
          · rcases List.mem_cons.mp h with rfl | h2'
            · exact Or.inr (List.mem_cons_self _ _)
            · exact Or.inl h2'
          · exact Or.inr (List.mem_cons_of_mem _ h)
        rcases hpr : parseRef r with _ | ⟨c0, n0⟩
        · have he : resolveLoop base_spec (fuel + 1) (r :: queue') scanned comps
              = resolveLoop base_spec fuel queue' (r :: scanned) comps := by
            simp [hstep, hrs, hpr]
          rw [he]
          refine ih queue' (r :: scanned) comps ⟨h1', h2', h3, ?_, h5', h6, h7'⟩
          intro x hx c n hpx hclx
          rcases List.mem_cons.mp hx with rfl | hx2
          · rw [hpr] at hpx
            exact Option.noConfusion hpx
          · exact h4 x hx2 c n hpx hclx
        · rcases hcl : compLookup base_spec c0 n0 with _ | d0
          · have he : resolveLoop base_spec (fuel + 1) (r :: queue') scanned comps
                = resolveLoop base_spec fuel queue' (r :: scanned) comps := by
              simp [hstep, hrs, hpr, hcl]
            rw [he]
            refine ih queue' (r :: scanned) comps ⟨h1', h2', h3, ?_, h5', h6, h7'⟩
            intro x hx c n hpx hclx
            rcases List.mem_cons.mp hx with rfl | hx2
            · rw [hpr] at hpx
              injection hpx with hcn
              injection hcn with hc1 hn1
              subst hc1
              subst hn1
              exact absurd hcl hclx
            · exact h4 x hx2 c n hpx hclx
          · by_cases hca : (compsAt comps c0 n0).isSome
            · have he : resolveLoop base_spec (fuel + 1) (r :: queue') scanned comps
                  = resolveLoop base_spec fuel queue' (r :: scanned) comps := by
                simp [hstep, hrs, hpr, hcl, hca]
              rw [he]
              refine ih queue' (r :: scanned) comps ⟨h1', h2', h3, ?_, h5', h6, h7'⟩
              intro x hx c n hpx hclx
              rcases List.mem_cons.mp hx with rfl | hx2
              · rw [hpr] at hpx
                injection hpx with hcn
                injection hcn with hc1 hn1
                subst hc1
                subst hn1
                exact hca
              · exact h4 x hx2 c n hpx hclx
            · have he : resolveLoop base_spec (fuel + 1) (r :: queue') scanned comps
                  = resolveLoop base_spec fuel (queue' ++ findRefs d0) (r :: scanned)
                      (compsInsert comps c0 n0 d0) := by
                simp [hstep, hrs, hpr, hcl, hca]
              rw [he]
              have hcaN : compsAt comps c0 n0 = none := by
                rcases hq0 : compsAt comps c0 n0 with _ | d1
                · rfl
                · rw [hq0] at hca
                  exact absurd rfl hca
              refine ih (queue' ++ findRefs d0) (r :: scanned)
                (compsInsert comps c0 n0 d0) ⟨?_, h2', ?_, ?_, ?_, compsInsert_objInv h6, ?_⟩
              · intro x hx
                rcases List.mem_append.mp hx with h | h
                · exact h1' x h
                · exact Reach.step r x c0 n0 d0 hRr hpr hcl h
              · intro c n d hd
                by_cases hcn : c = c0 ∧ n = n0
                · obtain ⟨rfl, rfl⟩ := hcn
                  rw [compsAt_compsInsert_self d0 h6 hcaN] at hd
                  obtain rfl := Option.some.inj hd
                  exact ⟨hcl, r, hRr, hpr⟩
                · rw [compsAt_compsInsert_ne d0 h6 hcn] at hd
                  exact h3 c n d hd
              · intro x hx c n hpx hclx
                by_cases hcn : c = c0 ∧ n = n0
                · obtain ⟨rfl, rfl⟩ := hcn
                  rw [compsAt_compsInsert_self d0 h6 hcaN]
                  rfl
                · rw [compsAt_compsInsert_ne d0 h6 hcn]
                  rcases List.mem_cons.mp hx with rfl | hx2
                  · rw [hpr] at hpx
                    injection hpx with hcn2
                    injection hcn2 with hc1 hn1
                    exact absurd ⟨hc1.symm, hn1.symm⟩ hcn
                  · exact h4 x hx2 c n hpx hclx
              · intro c n d hd r' hr'
                by_cases hcn : c = c0 ∧ n = n0
                · obtain ⟨rfl, rfl⟩ := hcn
                  rw [compsAt_compsInsert_self d0 h6 hcaN] at hd
                  obtain rfl := Option.some.inj hd
                  exact Or.inl (List.mem_append.mpr (Or.inr hr'))
                · rw [compsAt_compsInsert_ne d0 h6 hcn] at hd
                  rcases h5 c n d hd r' hr' with h | h
                  · rcases List.mem_cons.mp h with rfl | h2'
                    · exact Or.inr (List.mem_cons_self _ _)
                    · exact Or.inl (List.mem_append.mpr (Or.inl h2'))
                  · exact Or.inr (List.mem_cons_of_mem _ h)
              · intro x hx
                rcases h7 x hx with h | h
                · rcases List.mem_cons.mp h with rfl | h2'
                  · exact Or.inr (List.mem_cons_self _ _)
                  · exact Or.inl (List.mem_append.mpr (Or.inl h2'))
                · exact Or.inr (List.mem_cons_of_mem _ h)

theorem reach_of_nil {base_spec : J} {r : String}
    (h : Reach base_spec [] r) : False := by
  induction h with
  | seed r hr => exact absurd hr (List.not_mem_nil r)
  | step r r' c n d hR hpr hcl hr' ih => exact ih

theorem reach_scanned {base_spec : J} {seeds scanned : List String}
    {comps : List (String × J)}
    (hInv : ResolveInv base_spec seeds [] scanned comps) :
    ∀ r, Reach base_spec seeds r → r ∈ scanned := by
  obtain ⟨h1, h2, h3, h4, h5, h6, h7⟩ := hInv
  intro r hR
  induction hR with
  | seed r hr =>
    rcases h7 r hr with h | h
    · exact absurd h (List.not_mem_nil r)
    · exact h
  | step r r' c n d hR2 hpr hcl hr' ih =>
    have hsome := h4 r ih c n hpr (by rw [hcl]; exact fun hh => Option.noConfusion hh)
    rcases hd' : compsAt comps c n with _ | d1
    · rw [hd'] at hsome
      exact absurd hsome (by simp)
    · obtain ⟨hcl2, _⟩ := h3 c n d1 hd'
      rw [hcl] at hcl2
      obtain rfl := Option.some.inj hcl2
      rcases h5 c n d hd' r' hr' with h | h
      · exact absurd h (List.not_mem_nil r')
      · exact h

/-- Run on any seed list with empty initial dictionary, the worklist loop
computes exactly the reachable, resolvable component entries, with the base
specification's content. -/
theorem closure_exact_aux (base_spec : J) (seeds : List String) :
    ∀ c n d,
      compsAt (resolveLoop base_spec (resolveFuel base_spec seeds)
          seeds [] []).2.2 c n = some d
        ↔ compLookup base_spec c n = some d
          ∧ ∃ r, Reach base_spec seeds r ∧ parseRef r = some (c, n) := by
  intro c n d
  have hInv0 : ResolveInv base_spec seeds seeds [] [] := by
    refine ⟨fun r hr => Reach.seed r hr,
      fun r hr => absurd hr (List.not_mem_nil r), ?_,
      fun r hr => absurd hr (List.not_mem_nil r), ?_,
      fun p hp => absurd hp (List.not_mem_nil p),
      fun r hr => Or.inl hr⟩
    · intro c n d hd
      exact Option.noConfusion hd
    · intro c n d hd
      exact Option.noConfusion hd
  have hInvF := resolveLoop_inv base_spec seeds (resolveFuel base_spec seeds)
    seeds [] [] hInv0
  have hq := resolveLoop_fuel_empties base_spec seeds []
  rw [hq] at hInvF
  constructor
  · intro hd
    exact hInvF.2.2.1 c n d hd
  · rintro ⟨hcld, r, hR, hpr2⟩
    have hrs : r ∈ (resolveLoop base_spec (resolveFuel base_spec seeds)
        seeds [] []).2.1 := reach_scanned hInvF r hR
    have hsome := hInvF.2.2.2.1 r hrs c n hpr2
      (by rw [hcld]; exact fun hh => Option.noConfusion hh)
    rcases he2 : compsAt (resolveLoop base_spec (resolveFuel base_spec seeds)
        seeds [] []).2.2 c n with _ | d1
    · rw [he2] at hsome
      exact absurd hsome (by simp)
    · obtain ⟨hcl2, _⟩ := hInvF.2.2.1 c n d1 he2
      rw [hcld] at hcl2
      obtain rfl := Option.some.inj hcl2
      rfl

theorem componentsOf_jSetKey_obj (nkvs C : List (String × J)) :
    componentsOf (jSetKey (J.obj nkvs) "components" (J.obj C)) = C := by
  have h1 : lookupKv (setKv nkvs "components" (J.obj C)) "components"
      = some (J.obj C) := lookupKv_setKv_self nkvs "components" (J.obj C)
  simp [componentsOf, jSetKey, jlookup, h1]

/-- C2: closure exactness of `build_required_components`.  When the raw output
document carries no `components` key (as `build_new_spec` outputs do) and the
base specification has one, the output component dictionary holds an entry at
(category, name) with definition `d` exactly when the base specification
defines `d` there and some reference reachable from the output's retained
paths parses to (category, name): every reachable non-dangling reference is
present with the base's content, and nothing unreachable leaks through. -/
theorem claim_closure_exactness (ns base_spec : J)
    (h0 : jlookup ns "components" = none)
    (hbc : (jlookup base_spec "components").isNone = false) :
    ∀ c n d,
      compsAt (componentsOf (build_required_components ns base_spec)) c n = some d
        ↔ compLookup base_spec c n = some d
          ∧ ∃ r, Reach base_spec
              (findRefs ((jlookup ns "paths").getD (J.obj []))) r
              ∧ parseRef r = some (c, n) := by
  intro c n d
  have hbr : build_required_components ns base_spec
      = jSetKey ns "components" (J.obj (resolveLoop base_spec
          (resolveFuel base_spec (findRefs ((jlookup ns "paths").getD (J.obj []))))
          (findRefs ((jlookup ns "paths").getD (J.obj []))) [] []).2.2) := by
    unfold build_required_components
    rw [if_neg (by simp [hbc]), h0]
  rw [hbr]
  rcases ns with _ | b | i | s | xs | nkvs
  · constructor
    · intro h
      exact Option.noConfusion h
    · rintro ⟨h1x, r, hR, hpr2⟩
      exact (reach_of_nil hR).elim
  · constructor
    · intro h
      exact Option.noConfusion h
    · rintro ⟨h1x, r, hR, hpr2⟩
      exact (reach_of_nil hR).elim
  · constructor
    · intro h
      exact Option.noConfusion h
    · rintro ⟨h1x, r, hR, hpr2⟩
      exact (reach_of_nil hR).elim
  · constructor
    · intro h
      exact Option.noConfusion h
    · rintro ⟨h1x, r, hR, hpr2⟩
      exact (reach_of_nil hR).elim
  · constructor
    · intro h
      exact Option.noConfusion h
    · rintro ⟨h1x, r, hR, hpr2⟩
      exact (reach_of_nil hR).elim
  · rw [componentsOf_jSetKey_obj]
    exact closure_exact_aux base_spec
      (findRefs ((jlookup (J.obj nkvs) "paths").getD (J.obj []))) c n d

/-- Closure-exactness scenario: the one schema of the base specification. -/
def w2A : J := J.obj [("type", J.str "object")]

/-- Closure-exactness scenario: raw output document, one retained operation
referencing schema `A`, no `components` key. -/
def w2Ns : J :=
  J.obj [("openapi", J.str "3.0.0"), ("info", J.obj []),
    ("paths", J.obj [("/w", J.obj [("get",
      J.obj [("$ref", J.str "#/components/schemas/A")])])])]

/-- Closure-exactness scenario: base specification defining schema `A`. -/
def w2Base : J :=
  J.obj [("components", J.obj [("schemas", J.obj [("A", w2A)])])]

/-- Witness: closure exactness instantiated on a concrete document whose one
retained operation references schema `A` of the base specification. -/
theorem claim_closure_exactness_witness :
    jlookup w2Ns "components" = none
    ∧ (jlookup w2Base "components").isNone = false
    ∧ (compsAt (componentsOf (build_required_components w2Ns w2Base))
          "schemas" "A" = some w2A
        ↔ compLookup w2Base "schemas" "A" = some w2A
          ∧ ∃ r, Reach w2Base
              (findRefs ((jlookup w2Ns "paths").getD (J.obj []))) r
              ∧ parseRef r = some ("schemas", "A")) :=
  ⟨rfl, rfl, claim_closure_exactness w2Ns w2Base rfl rfl "schemas" "A" w2A⟩
